import Mathlib

/-!
Verification of the GitHub-Replicant-rs synchronization engine.

The Rust sources (`src/git.rs`, `src/github.rs`, `src/main.rs`, `src/args.rs`)
are shallowly embedded below.  Pure functions become Lean functions; effectful
functions (process invocation, filesystem access, HTTP fetches) are embedded by
passing an explicit oracle environment describing the outcome of each external
call, together with a trace of the observable actions the code performs.
Errors follow the `anyhow` discipline: an error is a chain of messages,
outermost context first, and the displayed text of an error is its outermost
message.
-/

namespace Replicant

/-! ## String utilities

`str::contains`, `eq_ignore_ascii_case`, `to_lowercase`, `trim` and `lines`
from the Rust standard library, modelled on `List Char`.  Rust compares bytes;
for valid UTF-8, byte-level substring search and lexicographic order agree with
the codepoint-level versions used here. -/

/-- Does `needle` occur at the start of `hay`? (`str::starts_with`). -/
def startsWithChars : List Char → List Char → Bool
  | [], _ => true
  | _ :: _, [] => false
  | a :: as, b :: bs => a == b && startsWithChars as bs

/-- Does `needle` occur anywhere in `hay`? (`str::contains`). -/
def containsChars (needle : List Char) : List Char → Bool
  | [] => startsWithChars needle []
  | c :: cs => startsWithChars needle (c :: cs) || containsChars needle cs

/-- `str::contains` on strings. -/
def strContains (hay needle : String) : Bool :=
  containsChars needle.toList hay.toList

/-- ASCII lowercasing of one character (`u8::to_ascii_lowercase`). -/
def asciiLower (c : Char) : Char :=
  if 'A' ≤ c && c ≤ 'Z' then Char.ofNat (c.toNat + 32) else c

/-- `str::eq_ignore_ascii_case`: equal length and pointwise ASCII
case-insensitive equality. -/
def eqIgnoreAsciiCase : List Char → List Char → Bool
  | [], [] => true
  | a :: as, b :: bs => asciiLower a == asciiLower b && eqIgnoreAsciiCase as bs
  | _, _ => false

/-- `str::to_lowercase`, restricted to the ASCII mapping (sufficient for the
ASCII takedown marker the code searches for). -/
def strToLower (s : String) : String :=
  ⟨s.toList.map asciiLower⟩

/-- ASCII whitespace test used by `trim`. -/
def isSpaceChar (c : Char) : Bool :=
  c == ' ' || c == '\t' || c == '\n' || c == '\r'

/-- `str::trim` on character lists. -/
def trimChars (l : List Char) : List Char :=
  ((l.dropWhile isSpaceChar).reverse.dropWhile isSpaceChar).reverse

/-- `str::trim` on strings. -/
def strTrim (s : String) : String :=
  ⟨trimChars s.toList⟩

/-- Split on newline characters (`str::lines`; the subsequent `trim` makes the
treatment of `\r` and of a trailing newline irrelevant). -/
def splitLines : List Char → List (List Char)
  | [] => [[]]
  | c :: cs =>
    if c == '\n' then [] :: splitLines cs
    else
      match splitLines cs with
      | [] => [[c]]
      | l :: ls => (c :: l) :: ls

/-! ## Error model (`anyhow`)

An error is a chain of messages, outermost first.  `Error::to_string` displays
the outermost message; `context` pushes a new outermost message. -/

abbrev ErrChain := List String

/-- `anyhow::Context::context`: wrap an error with an outer message. -/
def errContext (c : String) (e : ErrChain) : ErrChain := c :: e

/-- `anyhow::Error::to_string`: the outermost message. -/
def displayMsg (e : ErrChain) : String := e.headD ""

/-! ## `src/git.rs`

External git invocations are answered by a `GitEnv` oracle: one field per call
site, holding the `anyhow` result the call would produce.  Fields that model
`run_git_command_output` hold the stdout already trimmed, as that helper
returns `stdout.trim().to_string()`.  Observable effects are recorded in a
trace of `Act`ions. -/

/-- Observable filesystem / process effects of the sync state machine. -/
inductive Act where
  | pull : Act
  | fetchPrune : Act
  | resetHard : String → Act
  | removeDir : Act
  | cloneCmd : Act
deriving DecidableEq, Repr

/-- Oracle for the external calls made by `git.rs`. -/
structure GitEnv where
  /-- `tokio::fs::create_dir_all(parent)` in `sync_repository`. -/
  parentCreate : Except ErrChain Unit
  /-- `repo_path.exists()` at the start of `sync_repository`. -/
  pathExists : Bool
  /-- `repo_path.join(".git").exists()` (a file or a directory). -/
  dotGitExists : Bool
  /-- `git pull` in `sync_repository`. -/
  pullResult : Except ErrChain Unit
  /-- `remove_dir_all(repo_path)` before the re-clone in `sync_repository`. -/
  removeRepoDir : Except ErrChain Unit
  /-- `remove_dir_all(repo_path)` at the top of `clone_repository`. -/
  preCloneRemove : Except ErrChain Unit
  /-- `repo_path.to_str()` succeeds (the path is valid UTF-8). -/
  pathValidUtf8 : Bool
  /-- `git clone <url> <path>` in `clone_repository`. -/
  cloneResult : Except ErrChain Unit
  /-- `git fetch --all --prune` in `force_update`. -/
  fetchResult : Except ErrChain Unit
  /-- `git rev-parse --abbrev-ref --symbolic-full-name @{u}` (trimmed stdout). -/
  upstreamRef : Except ErrChain String
  /-- `git branch --show-current` (trimmed stdout). -/
  currentBranch : Except ErrChain String
  /-- success of `git rev-parse --verify origin/<branch>` for a branch name. -/
  verifyOrigin : String → Bool
  /-- `git symbolic-ref --quiet --short refs/remotes/origin/HEAD` (trimmed). -/
  originHead : Except ErrChain String
  /-- `git for-each-ref --format=... --sort=-committerdate --count=1
  refs/remotes/origin` (trimmed stdout). -/
  lastRemoteBranch : Except ErrChain String
  /-- `git rev-parse --verify HEAD` exit status (`has_commits`); an error chain
  models a failure to spawn the process. -/
  hasCommits : Except ErrChain Bool
  /-- `git reset --hard <upstream>` for a given upstream ref. -/
  resetResult : String → Except ErrChain Unit

/-- `is_default_branch_error`: the displayed error text contains both marker
substrings reported by `git pull` when the remote default branch changed. -/
def is_default_branch_error (e : ErrChain) : Bool :=
  strContains (displayMsg e) "Your configuration specifies to merge with the ref"
    && strContains (displayMsg e) "no such ref was fetched"

/-- `is_dmca_error`: the lowercased displayed error text contains "dmca". -/
def is_dmca_error (e : ErrChain) : Bool :=
  strContains (strToLower (displayMsg e)) "dmca"

/-- `clone_repository`.  `pathExistsNow` is the value of `repo_path.exists()`
at the moment of the call (false when the caller just removed the path).
Returns the job result and the trace of effects. -/
def clone_repository (env : GitEnv) (pathExistsNow : Bool) :
    Except ErrChain Unit × List Act :=
  let pre : Except ErrChain Unit × List Act :=
    if pathExistsNow then
      match env.preCloneRemove with
      | .ok _ => (.ok (), [Act.removeDir])
      | .error e =>
        (.error (errContext "Failed to remove incomplete directory before cloning" e),
         [Act.removeDir])
    else (.ok (), [])
  match pre with
  | (.error e, tr) => (.error e, tr)
  | (.ok _, tr) =>
    if env.pathValidUtf8 then
      match env.cloneResult with
      | .ok _ => (.ok (), tr ++ [Act.cloneCmd])
      | .error e =>
        if is_dmca_error e then (.ok (), tr ++ [Act.cloneCmd, Act.removeDir])
        else (.error e, tr ++ [Act.cloneCmd, Act.removeDir])
    else (.error ["Invalid destination path"], tr)

/-- The second block of `current_upstream`: `origin/<branch>` from
`git branch --show-current` when the branch is non-empty and the candidate
verifies. -/
def upstreamViaBranch (env : GitEnv) : Option String :=
  match env.currentBranch with
  | .ok branch =>
    if branch.isEmpty then none
    else if env.verifyOrigin branch then some ("origin/" ++ branch) else none
  | .error _ => none

/-- The third block of `current_upstream`: the remote HEAD when configured
and non-empty. -/
def upstreamViaRemoteHead (env : GitEnv) : Option String :=
  match env.originHead with
  | .ok h => if h.isEmpty then none else some h
  | .error _ => none

/-- The fourth block of `current_upstream`: the first non-blank line of the
most-recently-updated remote branch listing, trimmed. -/
def upstreamViaNewestRemote (env : GitEnv) : Option String :=
  match env.lastRemoteBranch with
  | .ok s =>
    match (splitLines s.toList).find? (fun b => !(trimChars b).isEmpty) with
    | some b => some ⟨trimChars b⟩
    | none => none
  | .error _ => none

/-- `current_upstream`: the four-step fallback chain resolving the upstream
reference, then the zero-commit escape hatch. -/
def current_upstream (env : GitEnv) : Except ErrChain (Option String) :=
  match env.upstreamRef with
  | .ok u => .ok (some u)
  | .error _ =>
    match upstreamViaBranch env with
    | some c => .ok (some c)
    | none =>
      match upstreamViaRemoteHead env with
      | some h => .ok (some h)
      | none =>
        match upstreamViaNewestRemote env with
        | some b => .ok (some b)
        | none =>
          match env.hasCommits with
          | .error e => .error e
          | .ok false => .ok none
          | .ok true =>
            .error ["No upstream branch configured and no remote branches found"]

/-- `force_update`: fetch with pruning, resolve the upstream, hard-reset to it
(or succeed without resetting when no upstream exists on a commitless repo). -/
def force_update (env : GitEnv) : Except ErrChain Unit × List Act :=
  match env.fetchResult with
  | .error e => (.error e, [Act.fetchPrune])
  | .ok _ =>
    match current_upstream env with
    | .error e =>
      (.error (errContext "Unable to determine upstream branch for forced update" e),
       [Act.fetchPrune])
    | .ok none => (.ok (), [Act.fetchPrune])
    | .ok (some upstream) =>
      match env.resetResult upstream with
      | .ok _ => (.ok (), [Act.fetchPrune, Act.resetHard upstream])
      | .error e => (.error e, [Act.fetchPrune, Act.resetHard upstream])

/-- `sync_repository`: the per-repository state machine. -/
def sync_repository (env : GitEnv) (force_reset : Bool) :
    Except ErrChain Unit × List Act :=
  match env.parentCreate with
  | .error e => (.error (errContext "Failed to ensure parent directory" e), [])
  | .ok _ =>
    if env.pathExists && env.dotGitExists then
      if force_reset then force_update env
      else
        match env.pullResult with
        | .ok _ => (.ok (), [Act.pull])
        | .error err =>
          if is_default_branch_error err then
            match env.removeRepoDir with
            | .error remove_err =>
              (.error (errContext
                  ("Failed to remove repository before re-clone: " ++ displayMsg remove_err)
                  err),
               [Act.pull, Act.removeDir])
            | .ok _ =>
              let c := clone_repository env false
              (c.1, [Act.pull, Act.removeDir] ++ c.2)
          else (.error err, [Act.pull])
    else
      clone_repository env env.pathExists

/-! ## `src/github.rs` -/

/-- `Owner`: the owner record deserialized from the API. -/
structure Owner where
  login : String
deriving DecidableEq, Repr

/-- `Repo`: the repository record deserialized from the API. -/
structure Repo where
  name : String
  clone_url : String
  fork : Bool
  full_name : String
  owner : Owner
deriving DecidableEq, Repr

/-- Codepoint-lexicographic strict order on character lists; for valid UTF-8
this agrees with the byte-lexicographic `Ord` that Rust's `String::cmp`
uses. -/
def charListLt : List Char → List Char → Bool
  | [], [] => false
  | [], _ :: _ => true
  | _ :: _, [] => false
  | a :: as, b :: bs =>
    if a.toNat < b.toNat then true
    else if b.toNat < a.toNat then false
    else charListLt as bs

/-- The comparator of `repos.sort_by(|a, b| a.full_name.cmp(&b.full_name))`,
as a reflexive order: `a` sorts no later than `b`. -/
def fullNameLe (a b : Repo) : Prop :=
  charListLt b.full_name.toList a.full_name.toList = false

instance : DecidableRel fullNameLe := fun a b =>
  inferInstanceAs (Decidable (_ = false))

/-- `repos_by_full_name.entry(key).or_insert(repo)`: insert only when the key
is absent.  The map is modelled as its list of values in insertion order
(the `HashMap` value order is arbitrary; the caller sorts afterwards). -/
def insertIfAbsent (m : List Repo) (r : Repo) : List Repo :=
  if m.any (fun x => x.full_name == r.full_name) then m else m ++ [r]

/-- The fetch loop of `fetch_repos_for_users`: walk the username list, skip
names already in `seen_users`, fetch each new user's repositories (given by
the pure oracle `reposOf`) and merge them first-wins into the map.  Returns
the users actually fetched, in fetch order, and the merged map values. -/
def fetchAccum (reposOf : String → List Repo) :
    List String → List String → List Repo → List String × List Repo
  | [], fetched, m => (fetched, m)
  | u :: us, fetched, m =>
    if fetched.contains u then fetchAccum reposOf us fetched m
    else fetchAccum reposOf us (fetched ++ [u]) ((reposOf u).foldl insertIfAbsent m)

/-- `fetch_repos_for_users` (success path: every per-user fetch succeeded,
`reposOf u` being the repositories of user `u`): merge first-wins by
`full_name`, then sort by `full_name`. -/
def fetch_repos_for_users (reposOf : String → List Repo) (usernames : List String) :
    List Repo :=
  List.insertionSort fullNameLe (fetchAccum reposOf usernames [] []).2

/-- The accounts `fetch_repos_for_users` actually fetches, in order. -/
def fetchedAccounts (reposOf : String → List Repo) (usernames : List String) :
    List String :=
  (fetchAccum reposOf usernames [] []).1

/-- Spec-side helper: keep, from a stream of repositories, the first
repository for each full name not already in `seenKeys` ("the first successful
insertion for a key wins"). -/
def firstWinsAux (seenKeys : List String) : List Repo → List Repo
  | [] => []
  | r :: rest =>
    if seenKeys.contains r.full_name then firstWinsAux seenKeys rest
    else r :: firstWinsAux (r.full_name :: seenKeys) rest

/-- Spec-side helper: first repository per full name wins. -/
def firstWins (l : List Repo) : List Repo := firstWinsAux [] l

/-- `fetch_paginated`, from a given starting page.  `fetchPage` answers each
page request with the decoded items or an error (transport failure, API status
error or decode failure all abort with an error).  The extra `fuel` argument
makes the loop total; every claim is settled at fuel large enough to reach the
terminating empty page, where the result no longer depends on the fuel.
Returns the aggregation outcome and the number of page requests issued. -/
def fetch_paginated_from {T : Type} (fetchPage : Nat → Except String (List T)) :
    Nat → Nat → Except String (List T) × Nat
  | 0, _ => (.ok [], 0)
  | fuel + 1, page =>
    match fetchPage page with
    | .error e => (.error e, 1)
    | .ok pageItems =>
      if pageItems.isEmpty then (.ok [], 1)
      else
        let rest := fetch_paginated_from fetchPage fuel (page + 1)
        (rest.1.map (fun items => pageItems ++ items), rest.2 + 1)

/-- `fetch_paginated`: the loop starts at page 1. -/
def fetch_paginated {T : Type} (fetchPage : Nat → Except String (List T))
    (fuel : Nat) : Except String (List T) × Nat :=
  fetch_paginated_from fetchPage fuel 1

/-! ## `src/main.rs`: destination paths and the run summary -/

/-- `destination_path`: under the base directory, `name` for the root user's
own repositories, `owner/name` otherwise.  Paths are modelled as their list of
components. -/
def destination_path (base_dir : List String) (repo : Repo) (root_username : String) :
    List String :=
  if eqIgnoreAsciiCase repo.owner.login.toList root_username.toList then
    base_dir ++ [repo.name]
  else
    base_dir ++ [repo.owner.login, repo.name]

/-- Spec-side case-insensitive equality: the two strings agree after
lowercasing every character. -/
def LowerEq (a b : String) : Prop :=
  a.toList.map asciiLower = b.toList.map asciiLower

instance : DecidablePred fun p : String × String => LowerEq p.1 p.2 :=
  fun _ => inferInstanceAs (Decidable (_ = _))

instance (a b : String) : Decidable (LowerEq a b) :=
  inferInstanceAs (Decidable (_ = _))

/-- One submitted sync job, as the orchestrator sees it: the repository name
used in reports, and the outcome its `sync_repository` call produces. -/
structure SyncJob where
  jobName : String
  outcome : Except ErrChain Unit

/-- The collected result of one job: `(repo.name, result)`. -/
def runJob (j : SyncJob) : String × Except ErrChain Unit := (j.jobName, j.outcome)

/-- Is a collected result a failure? (`res.is_err()`). -/
def resultIsErr (r : String × Except ErrChain Unit) : Bool :=
  match r.2 with
  | .ok _ => false
  | .error _ => true

/-- The message printed for a failed job (`eprintln!` shows the `anyhow`
display, i.e. the outermost message). -/
def errMsgOf (r : Except ErrChain Unit) : String :=
  match r with
  | .ok _ => ""
  | .error e => displayMsg e

/-- The `[FAILED] name: message` line for one collected result. -/
def failureLine (r : String × Except ErrChain Unit) : String × String :=
  (r.1, errMsgOf r.2)

/-- The error-summary tail of `main`: given the collected `(name, result)`
pairs (in whatever completion order) and the outcome of the optional pruning
phase (which runs first and aborts the run on error via `?`), produce the
run's exit result and the lines printed for failed jobs. -/
def runSummary (exactMirror : Bool) (pruneOutcome : Except ErrChain Unit)
    (results : List (String × Except ErrChain Unit)) :
    Except ErrChain Unit × List (String × String) :=
  match exactMirror, pruneOutcome with
  | true, .error e => (.error e, [])
  | _, _ =>
    let errors := results.filter resultIsErr
    if errors.isEmpty then (.ok (), [])
    else
      (.error ["Synchronization finished with errors."], errors.map failureLine)

/-! ## `src/main.rs`: mirror reconciliation

The slice of the filesystem that `existing_repo_paths` / `prune_extra_repos`
inspect is the output directory and two levels below it; a directory is a list
of named entries.  `remove_dir_all` is answered by a `canRemove` oracle
(`true`: the removal succeeds; `false`: it returns an error). -/

/-- A filesystem node: a regular file, or a directory with named children. -/
inductive FsNode where
  | file : FsNode
  | dir : List (String × FsNode) → FsNode

/-- The children of a node (empty for a file). -/
def dirChildren : FsNode → List (String × FsNode)
  | .file => []
  | .dir cs => cs

/-- Is the node a directory? (`Metadata::is_dir` / `FileType::is_dir`). -/
def isDirNode : FsNode → Bool
  | .file => false
  | .dir _ => true

/-- Look up a child by name (`fs::metadata(path.join(name))`): the first
entry carrying the name, if any. -/
def childNamed : List (String × FsNode) → String → Option FsNode
  | [], _ => none
  | c :: t, name => if c.1 == name then some c.2 else childNamed t name

/-- `is_git_repo`: the `.git` child exists and is a directory. -/
def is_git_repo (n : FsNode) : Bool :=
  match childNamed (dirChildren n) ".git" with
  | some g => isDirNode g
  | none => false

/-- The check `repo_path.exists() && repo_path.join(".git").exists()` of
`sync_repository`, for an existing path whose node is `n`: the `.git` entry
may be a file or a directory. -/
def syncSeesValidRepo (n : FsNode) : Bool :=
  (childNamed (dirChildren n) ".git").isSome

/-- A path relative to the output root, as its list of components. -/
abbrev FsPath := List String

/-- `existing_repo_paths`: direct child directories holding version-control
metadata, and, below child directories that do not, one further level of
directories that do. -/
def existing_repo_paths (root : List (String × FsNode)) : List FsPath :=
  root.flatMap (fun c =>
    match c.2 with
    | .file => []
    | .dir inner =>
      if is_git_repo c.2 then [[c.1]]
      else
        inner.flatMap (fun d =>
          if isDirNode d.2 && is_git_repo d.2 then [[c.1, d.1]] else []))

/-- Remove all entries with the given name from a directory listing. -/
def removeTop (cs : List (String × FsNode)) (name : String) :
    List (String × FsNode) :=
  cs.filter (fun c => !(c.1 == name))

/-- Remove the child named `b` inside a node (no effect on a file). -/
def removeInner (b : String) : FsNode → FsNode
  | .dir cs => .dir (removeTop cs b)
  | .file => .file

/-- `remove_dir_all` of a depth-1 or depth-2 path below the root. -/
def removeAt (root : List (String × FsNode)) : FsPath → List (String × FsNode)
  | [a] => removeTop root a
  | [a, b] =>
    root.map (fun c => if c.1 == a then (c.1, removeInner b c.2) else c)
  | _ => root

/-- The first loop of `prune_extra_repos`: walk the discovered repository
paths in order; paths in the desired set are kept, the rest are removed, a
removal failure aborting immediately (the `?` operator).  Also returns the
paths whose removal was attempted. -/
def removeExtras (canRemove : FsPath → Bool) (desired : List FsPath) :
    List FsPath → List (String × FsNode) →
    Except ErrChain (List (String × FsNode)) × List FsPath
  | [], root => (.ok root, [])
  | p :: ps, root =>
    if desired.contains p then removeExtras canRemove desired ps root
    else if canRemove p then
      let rest := removeExtras canRemove desired ps (removeAt root p)
      (rest.1, p :: rest.2)
    else (.error ["Failed to remove outdated repository"], [p])

/-- Does the cleanup loop of `prune_extra_repos` try to delete this entry?
It must be a directory, not a git repository, and have no entries. -/
def cleanupCandidate (c : String × FsNode) : Bool :=
  isDirNode c.2 && !is_git_repo c.2 && (dirChildren c.2).isEmpty

/-- The second loop of `prune_extra_repos`: remove every empty non-repository
directory directly under the root; a removal failure is discarded
(`remove_dir_all(&path).await.ok()`), so a failing entry merely stays. -/
def cleanupEmpties (canRemove : FsPath → Bool) (root : List (String × FsNode)) :
    List (String × FsNode) :=
  root.filter (fun c => !(cleanupCandidate c && canRemove [c.1]))

/-- `prune_extra_repos`: remove discovered repositories outside the desired
set, then clean up empty non-repository directories.  Returns the run outcome
with the resulting tree, and the trace of attempted removals. -/
def prune_extra_repos (canRemove : FsPath → Bool) (desired : List FsPath)
    (root : List (String × FsNode)) :
    Except ErrChain (List (String × FsNode)) × List FsPath :=
  match removeExtras canRemove desired (existing_repo_paths root) root with
  | (.error e, tr) => (.error e, tr)
  | (.ok root1, tr) =>
    (.ok (cleanupEmpties canRemove root1),
     tr ++ (root1.filter cleanupCandidate).map (fun c => [c.1]))

/-- Look up the node at a depth-1 or depth-2 path below the root. -/
def getAt (root : List (String × FsNode)) : FsPath → Option FsNode
  | [a] => childNamed root a
  | [a, b] =>
    match childNamed root a with
    | some n =>
      match n with
      | .dir cs => childNamed cs b
      | .file => none
    | none => none
  | _ => none

/-- Well-formedness of the modelled directory tree: entry names are unique at
the root and inside every child directory (as they are on a real
filesystem). -/
def WfRoot (root : List (String × FsNode)) : Prop :=
  (root.map (fun c => c.1)).Nodup ∧
    ∀ c ∈ root, ((dirChildren c.2).map (fun d => d.1)).Nodup

instance (root : List (String × FsNode)) : Decidable (WfRoot root) := by
  unfold WfRoot
  exact inferInstance

/-! ## The watched-repositories fetch (claim C9)

`main.rs` calls `github::fetch_watched_repos(&client, username,
is_authenticated)` in its `--watching` branch, but no definition of
`fetch_watched_repos` appears under `src/`; only this call site does. -/

/-- Which account a watched-repositories page request is scoped to. -/
inductive WatchScope where
  | authenticatedUser : WatchScope
  | positionalUser : String → WatchScope
deriving DecidableEq, Repr

/-- One page request of the watched-repositories endpoint. -/
structure WatchedPage where
  scope : WatchScope
  includeCustomNotifications : Bool
  page : Nat
deriving DecidableEq, Repr

/-- Modelled from the spec: `fetch_watched_repos` is called from `main.rs` but
absent from the sources; per the spec, the page request is scoped to the
authenticated identity and includes repositories with custom notification
settings when a credential is present, and queries the positional username
otherwise. -/
def watchedPageRequest (username : String) (is_authenticated : Bool)
    (page : Nat) : WatchedPage :=
  if is_authenticated then
    { scope := .authenticatedUser, includeCustomNotifications := true, page := page }
  else
    { scope := .positionalUser username, includeCustomNotifications := false, page := page }

/-- Modelled from the spec: `fetch_watched_repos` is absent from the sources;
per the spec it is a thin specialization of the paginated fetch against the
watched endpoint. -/
def fetch_watched_repos (fetchPage : WatchedPage → Except String (List Repo))
    (fuel : Nat) (username : String) (is_authenticated : Bool) :
    Except String (List Repo) × Nat :=
  fetch_paginated (fun page => fetchPage (watchedPageRequest username is_authenticated page)) fuel

/-- The `SyncSource::Watching` arm of `main`: `is_authenticated` is
`args.token.is_some()`, and the fetch goes through `fetch_watched_repos`. -/
def watchingModeFetch (fetchPage : WatchedPage → Except String (List Repo))
    (fuel : Nat) (username : String) (token : Option String) :
    Except String (List Repo) × Nat :=
  fetch_watched_repos fetchPage fuel username token.isSome

/-! ## Spec-side formulation of the force-update fallback chain (claim C3)

The spec describes upstream resolution as "an explicit ordered sequence of
functions tried in turn"; the definitions below follow that wording and are
compared against the nested control flow of `current_upstream`. -/

/-- Strategy 1: the recorded upstream-tracking reference. -/
def strategyRecorded (env : GitEnv) : Option String :=
  match env.upstreamRef with
  | .ok u => some u
  | .error _ => none

/-- Strategy 2: `origin/<current-branch>` when the branch name is known,
non-empty, and that remote ref exists. -/
def strategyOriginBranch (env : GitEnv) : Option String :=
  match env.currentBranch with
  | .ok b => if !b.isEmpty && env.verifyOrigin b then some ("origin/" ++ b) else none
  | .error _ => none

/-- Strategy 3: the remote's symbolic default-branch reference, when
configured. -/
def strategyRemoteHead (env : GitEnv) : Option String :=
  match env.originHead with
  | .ok h => if h.isEmpty then none else some h
  | .error _ => none

/-- Strategy 4: the most-recently-committed remote branch under origin, when
any exists. -/
def strategyNewestRemote (env : GitEnv) : Option String :=
  match env.lastRemoteBranch with
  | .ok s =>
    match (splitLines s.toList).find? (fun b => !(trimChars b).isEmpty) with
    | some b => some (⟨trimChars b⟩ : String)
    | none => none
  | .error _ => none

/-- The ordered fallback chain, first success wins. -/
def resolveUpstreamSpec (env : GitEnv) : Option String :=
  [strategyRecorded env, strategyOriginBranch env, strategyRemoteHead env,
   strategyNewestRemote env].findSome? id

/-- The spec's description of force-update (with the failure message the code
actually produces): fetch all remotes with pruning; resolve the upstream by
the fallback chain; hard-reset to it when resolved; succeed without resetting
when unresolved on a zero-commit repository; fail otherwise. -/
def spec_force_update (env : GitEnv) : Except ErrChain Unit × List Act :=
  match env.fetchResult with
  | .error e => (.error e, [Act.fetchPrune])
  | .ok _ =>
    match resolveUpstreamSpec env with
    | some u =>
      match env.resetResult u with
      | .ok _ => (.ok (), [Act.fetchPrune, Act.resetHard u])
      | .error e => (.error e, [Act.fetchPrune, Act.resetHard u])
    | none =>
      match env.hasCommits with
      | .ok false => (.ok (), [Act.fetchPrune])
      | _ =>
        (.error ["Unable to determine upstream branch for forced update",
                 "No upstream branch configured and no remote branches found"],
         [Act.fetchPrune])

/-! ## Concrete inputs used by witnesses -/

/-- A repository owned by the root account (the spec's destination example). -/
def repoAliceExample : Repo := ⟨"repo", "url", false, "alice/repo", ⟨"alice"⟩⟩

/-- A repository owned by someone else. -/
def repoBobExample : Repo := ⟨"repo", "url", false, "bob/repo", ⟨"bob"⟩⟩

/-- Oracle for the C2 witness: the clone fails with a takedown message. -/
def envC2 : GitEnv :=
  ⟨.ok (), false, false, .ok (), .ok (), .ok (), true,
   .error ["Git command failed: remote: Repository unavailable due to DMCA takedown."],
   .ok (), .error ["no upstream"], .ok "", fun _ => false, .error ["none"],
   .error ["none"], .ok true, fun _ => .ok ()⟩

/-! # Theorems -/

theorem eqIgnoreAsciiCase_iff (a b : List Char) :
    eqIgnoreAsciiCase a b = true ↔ a.map asciiLower = b.map asciiLower := by
  induction a generalizing b with
  | nil => cases b <;> simp [eqIgnoreAsciiCase]
  | cons x xs ih =>
    cases b with
    | nil => simp [eqIgnoreAsciiCase]
    | cons y ys => simp [eqIgnoreAsciiCase, ih]

/-- C6: for every repository and root username, the destination path is
`root/name` exactly when the repository's owner login equals the root
username case-insensitively, and `root/ownerLogin/name` otherwise. -/
theorem C6_destination_path (base_dir : List String) (repo : Repo)
    (root_username : String) :
    (destination_path base_dir repo root_username = base_dir ++ [repo.name] ↔
      LowerEq repo.owner.login root_username) ∧
    (¬ LowerEq repo.owner.login root_username →
      destination_path base_dir repo root_username =
        base_dir ++ [repo.owner.login, repo.name]) := by
  by_cases h : LowerEq repo.owner.login root_username
  · have hb : eqIgnoreAsciiCase repo.owner.login.toList root_username.toList = true :=
      (eqIgnoreAsciiCase_iff _ _).mpr h
    have hd : destination_path base_dir repo root_username = base_dir ++ [repo.name] := by
      unfold destination_path
      rw [if_pos hb]
    exact ⟨⟨fun _ => h, fun _ => hd⟩, fun hc => absurd h hc⟩
  · have hb : eqIgnoreAsciiCase repo.owner.login.toList root_username.toList = false := by
      cases hbb : eqIgnoreAsciiCase repo.owner.login.toList root_username.toList with
      | false => rfl
      | true => exact absurd ((eqIgnoreAsciiCase_iff _ _).mp hbb) h
    have hd : destination_path base_dir repo root_username =
        base_dir ++ [repo.owner.login, repo.name] := by
      unfold destination_path
      have hnot : ¬ eqIgnoreAsciiCase repo.owner.login.toList root_username.toList = true := by
        rw [hb]
        decide
      rw [if_neg hnot]
    constructor
    · constructor
      · intro heq
        rw [hd] at heq
        have hl := congrArg List.length heq
        simp at hl
      · intro hLE
        exact absurd hLE h
    · intro _
      exact hd

/-- Witness for C6 at the spec's concrete example: owner `alice` under root
`Alice` lands at `root/repo`; owner `bob` under root `alice` lands at
`root/bob/repo`. -/
theorem C6_destination_path_witness :
    destination_path ["output", "Alice"] repoAliceExample "Alice" =
      ["output", "Alice", "repo"] ∧
    destination_path ["output", "alice"] repoBobExample "alice" =
      ["output", "alice", "bob", "repo"] :=
  ⟨(C6_destination_path ["output", "Alice"] repoAliceExample "Alice").1.mpr (by decide),
   (C6_destination_path ["output", "alice"] repoBobExample "alice").2 (by decide)⟩

/-- C9: the watching mode fetches through `fetch_watched_repos`, a thin
specialization of the paginated fetch whose page requests, when a credential
is present, are scoped to the authenticated identity (independent of the
positional username) and include repositories with custom notification
settings, and query the positional username otherwise. -/
theorem C9_watched_fetch (fetchPage : WatchedPage → Except String (List Repo))
    (fuel : Nat) (username other : String) (token : Option String) (page : Nat) :
    watchingModeFetch fetchPage fuel username token =
      fetch_paginated
        (fun p => fetchPage (watchedPageRequest username token.isSome p)) fuel ∧
    (token.isSome = true →
      (watchedPageRequest username token.isSome page).scope =
        WatchScope.authenticatedUser ∧
      (watchedPageRequest username token.isSome page).includeCustomNotifications = true ∧
      watchedPageRequest username token.isSome page =
        watchedPageRequest other token.isSome page) ∧
    (token.isSome = false →
      (watchedPageRequest username token.isSome page).scope =
        WatchScope.positionalUser username) := by
  refine ⟨rfl, ?_, ?_⟩
  · intro h
    rw [h]
    exact ⟨rfl, rfl, rfl⟩
  · intro h
    rw [h]
    rfl

/-- Witness for C9: with a token the request is scoped to the authenticated
identity; without one it queries the positional username. -/
theorem C9_watched_fetch_witness :
    (watchedPageRequest "alice" (some "tok" : Option String).isSome 1).scope =
      WatchScope.authenticatedUser ∧
    (watchedPageRequest "carol" (none : Option String).isSome 1).scope =
      WatchScope.positionalUser "carol" :=
  ⟨((C9_watched_fetch (fun _ => .ok []) 0 "alice" "bob" (some "tok") 1).2.1 rfl).1,
   (C9_watched_fetch (fun _ => .ok []) 0 "carol" "bob" none 1).2.2 rfl⟩

/-- C2: for every clone attempt that fails, the partially-created path is
removed; the job reports success when the captured error text contains the
takedown marker case-insensitively, and reports the failure unchanged
otherwise. -/
theorem C2_clone_failure_handling (env : GitEnv) (pathExistsNow : Bool)
    (hutf : env.pathValidUtf8 = true)
    (hpre : pathExistsNow = true → env.preCloneRemove = Except.ok ())
    (e : ErrChain) (hclone : env.cloneResult = Except.error e) :
    (is_dmca_error e = true →
      (clone_repository env pathExistsNow).1 = Except.ok () ∧
      ∃ pre, (clone_repository env pathExistsNow).2 =
        pre ++ [Act.cloneCmd, Act.removeDir]) ∧
    (is_dmca_error e = false →
      (clone_repository env pathExistsNow).1 = Except.error e ∧
      ∃ pre, (clone_repository env pathExistsNow).2 =
        pre ++ [Act.cloneCmd, Act.removeDir]) := by
  cases pathExistsNow with
  | false =>
    constructor
    · intro hd
      refine ⟨?_, ⟨[], ?_⟩⟩ <;> simp [clone_repository, hutf, hclone, hd]
    · intro hd
      refine ⟨?_, ⟨[], ?_⟩⟩ <;> simp [clone_repository, hutf, hclone, hd]
  | true =>
    have hp := hpre rfl
    constructor
    · intro hd
      refine ⟨?_, ⟨[Act.removeDir], ?_⟩⟩ <;> simp [clone_repository, hutf, hclone, hd, hp]
    · intro hd
      refine ⟨?_, ⟨[Act.removeDir], ?_⟩⟩ <;> simp [clone_repository, hutf, hclone, hd, hp]

/-- Witness for C2: a clone failure carrying a takedown notice is skipped. -/
theorem C2_clone_failure_handling_witness :
    (clone_repository envC2 false).1 = Except.ok () ∧
    is_dmca_error
      ["Git command failed: remote: Repository unavailable due to DMCA takedown."] =
      true := by
  have h := (C2_clone_failure_handling envC2 false rfl (fun hc => nomatch hc) _ rfl).1
    (by decide)
  exact ⟨h.1, by decide⟩

theorem clone_trace_has_clone (env : GitEnv) (hutf : env.pathValidUtf8 = true) :
    Act.cloneCmd ∈ (clone_repository env false).2 := by
  cases hc : env.cloneResult with
  | ok u => simp [clone_repository, hutf, hc]
  | error e =>
    by_cases hd : is_dmca_error e = true
    · simp [clone_repository, hutf, hc, hd]
    · simp [clone_repository, hutf, hc, hd]

theorem clone_ok_result (env : GitEnv) (hutf : env.pathValidUtf8 = true)
    (hc : env.cloneResult = Except.ok ()) :
    clone_repository env false = (Except.ok (), [Act.cloneCmd]) := by
  simp [clone_repository, hutf, hc]

/-- C1: on a valid local repository with the force flag unset, the sync runs
a fast-update (`git pull`); a clone is performed exactly when the pull failed
with the default-branch-changed signature, in which case the path is deleted
first and the job succeeds when the clone does; any other pull failure is the
job's failure, unchanged. -/
theorem C1_fast_update_recovery (env : GitEnv)
    (hpc : env.parentCreate = Except.ok ()) (hpe : env.pathExists = true)
    (hg : env.dotGitExists = true) (hrm : env.removeRepoDir = Except.ok ())
    (hutf : env.pathValidUtf8 = true) :
    (sync_repository env false).2.head? = some Act.pull ∧
    (Act.cloneCmd ∈ (sync_repository env false).2 ↔
      ∃ e, env.pullResult = Except.error e ∧ is_default_branch_error e = true) ∧
    (env.pullResult = Except.ok () →
      sync_repository env false = (Except.ok (), [Act.pull])) ∧
    (∀ e, env.pullResult = Except.error e → is_default_branch_error e = true →
      Act.removeDir ∈ (sync_repository env false).2 ∧
      (env.cloneResult = Except.ok () → (sync_repository env false).1 = Except.ok ())) ∧
    (∀ e, env.pullResult = Except.error e → is_default_branch_error e = false →
      sync_repository env false = (Except.error e, [Act.pull])) := by
  cases hp : env.pullResult with
  | ok u =>
    cases u
    have hs : sync_repository env false = (Except.ok (), [Act.pull]) := by
      simp [sync_repository, hpc, hpe, hg, hp]
    refine ⟨by rw [hs]; rfl, ?_, fun _ => hs, ?_, ?_⟩
    · rw [hs]
      constructor
      · intro hmem
        simp at hmem
      · rintro ⟨e, he, -⟩
        exact nomatch he
    · intro e he
      exact nomatch he
    · intro e he
      exact nomatch he
  | error e0 =>
    by_cases hd : is_default_branch_error e0 = true
    · have hs : sync_repository env false =
          ((clone_repository env false).1,
           [Act.pull, Act.removeDir] ++ (clone_repository env false).2) := by
        simp [sync_repository, hpc, hpe, hg, hp, hd, hrm]
      refine ⟨by rw [hs]; rfl, ?_, ?_, ?_, ?_⟩
      · rw [hs]
        simp only [List.mem_append]
        constructor
        · intro _
          exact ⟨e0, rfl, hd⟩
        · intro _
          right
          exact clone_trace_has_clone env hutf
      · intro hok
        exact nomatch hok
      · intro e he hde
        refine ⟨by rw [hs]; simp, fun hco => ?_⟩
        rw [hs]
        rw [clone_ok_result env hutf hco]
      · intro e he hdf
        have he0 : e0 = e := Except.error.inj he
        rw [← he0] at hdf
        rw [hdf] at hd
        exact nomatch hd
    · have hdf : is_default_branch_error e0 = false := by
        cases hdd : is_default_branch_error e0 with
        | false => rfl
        | true => exact absurd hdd hd
      have hs : sync_repository env false = (Except.error e0, [Act.pull]) := by
        simp [sync_repository, hpc, hpe, hg, hp, hdf]
      refine ⟨by rw [hs]; rfl, ?_, ?_, ?_, ?_⟩
      · rw [hs]
        constructor
        · intro hmem
          simp at hmem
        · rintro ⟨e, he, hde⟩
          have he0 : e0 = e := Except.error.inj he
          rw [← he0] at hde
          rw [hde] at hdf
          exact nomatch hdf
      · intro hok
        exact nomatch hok
      · intro e he hde
        have he0 : e0 = e := Except.error.inj he
        rw [← he0] at hde
        rw [hde] at hdf
        exact nomatch hdf
      · intro e he _
        have he0 : e0 = e := Except.error.inj he
        rw [← he0]
        exact hs

/-- A pull failure text carrying the default-branch-changed signature. -/
def defaultBranchMsg : String :=
  "Git command failed: Your configuration specifies to merge with the ref main, but no such ref was fetched."

/-- Oracle for the C1 witness: pull fails with the signature, the removal and
the re-clone succeed. -/
def envC1 : GitEnv :=
  ⟨.ok (), true, true, .error [defaultBranchMsg], .ok (), .ok (), true, .ok (),
   .ok (), .error ["no upstream"], .ok "", fun _ => false, .error ["none"],
   .error ["none"], .ok true, fun _ => .ok ()⟩

/-- Witness for C1: with a signature-matching pull failure and a successful
re-clone, the job succeeds and a clone was performed. -/
theorem C1_fast_update_recovery_witness :
    (sync_repository envC1 false).1 = Except.ok () ∧
    Act.cloneCmd ∈ (sync_repository envC1 false).2 ∧
    is_default_branch_error [defaultBranchMsg] = true := by
  have h := C1_fast_update_recovery envC1 rfl rfl rfl rfl rfl
  have hsig : is_default_branch_error [defaultBranchMsg] = true := by decide
  exact ⟨(h.2.2.2.1 [defaultBranchMsg] rfl hsig).2 rfl,
         h.2.1.mpr ⟨[defaultBranchMsg], rfl, hsig⟩, hsig⟩

theorem resolveUpstreamSpec_eq (env : GitEnv) :
    resolveUpstreamSpec env =
      (match strategyRecorded env with
       | some u => some u
       | none =>
         match strategyOriginBranch env with
         | some u => some u
         | none =>
           match strategyRemoteHead env with
           | some u => some u
           | none => strategyNewestRemote env) := by
  unfold resolveUpstreamSpec
  cases strategyRecorded env <;> cases strategyOriginBranch env <;>
    cases strategyRemoteHead env <;> cases strategyNewestRemote env <;>
      simp [List.findSome?_cons]

theorem upstreamViaBranch_eq (env : GitEnv) :
    upstreamViaBranch env = strategyOriginBranch env := by
  unfold upstreamViaBranch strategyOriginBranch
  cases env.currentBranch with
  | ok b =>
    by_cases hb : b.isEmpty = true
    · simp [hb]
    · have hb' : b.isEmpty = false := by
        cases hbb : b.isEmpty with
        | false => rfl
        | true => exact absurd hbb hb
      by_cases hv : env.verifyOrigin b = true
      · simp [hb', hv]
      · have hv' : env.verifyOrigin b = false := by
          cases hvv : env.verifyOrigin b with
          | false => rfl
          | true => exact absurd hvv hv
        simp [hb', hv']
  | error e => rfl

theorem upstreamViaRemoteHead_eq (env : GitEnv) :
    upstreamViaRemoteHead env = strategyRemoteHead env := rfl

theorem upstreamViaNewestRemote_eq (env : GitEnv) :
    upstreamViaNewestRemote env = strategyNewestRemote env := rfl

theorem current_upstream_eq_spec (env : GitEnv) :
    current_upstream env =
      (match resolveUpstreamSpec env with
       | some u => Except.ok (some u)
       | none =>
         match env.hasCommits with
         | .error e => Except.error e
         | .ok false => Except.ok none
         | .ok true =>
           Except.error ["No upstream branch configured and no remote branches found"]) := by
  rw [resolveUpstreamSpec_eq]
  unfold current_upstream
  rw [upstreamViaBranch_eq, upstreamViaRemoteHead_eq, upstreamViaNewestRemote_eq]
  cases hr : env.upstreamRef with
  | ok u => simp [strategyRecorded, hr]
  | error e1 =>
    have hsr : strategyRecorded env = none := by
      unfold strategyRecorded
      rw [hr]
    rw [hsr]
    cases strategyOriginBranch env with
    | some c => rfl
    | none =>
      cases strategyRemoteHead env with
      | some h => rfl
      | none =>
        cases strategyNewestRemote env with
        | some b => rfl
        | none => rfl

/-- C3 (amended): a force-flagged sync of a valid local repository behaves as
the spec's strategy chain prescribes — fetch all remotes with pruning first,
resolve the upstream by trying the recorded upstream-tracking reference, then
`origin/<current-branch>` when that remote ref exists, then the remote's
symbolic default-branch reference, then the most-recently-committed remote
branch under origin; hard-reset when one resolves; succeed without resetting
when none resolves on a zero-commit repository; and otherwise fail with the
message "No upstream branch configured and no remote branches found" wrapped
in the context "Unable to determine upstream branch for forced update". -/
theorem C3_amended_force_update (env : GitEnv)
    (hpc : env.parentCreate = Except.ok ()) (hpe : env.pathExists = true)
    (hg : env.dotGitExists = true)
    (cb : Bool) (hcb : env.hasCommits = Except.ok cb) :
    sync_repository env true = spec_force_update env ∧
    (sync_repository env true).2.head? = some Act.fetchPrune := by
  have hsync : sync_repository env true = force_update env := by
    simp [sync_repository, hpc, hpe, hg]
  have hmain : force_update env = spec_force_update env := by
    unfold force_update spec_force_update
    cases env.fetchResult with
    | error e => rfl
    | ok u =>
      rw [current_upstream_eq_spec]
      cases hr : resolveUpstreamSpec env with
      | some up => rfl
      | none =>
        rw [hcb]
        cases cb <;> rfl
  have hhead : (spec_force_update env).2.head? = some Act.fetchPrune := by
    cases hfe : env.fetchResult with
    | error e => simp [spec_force_update, hfe]
    | ok u =>
      cases hr : resolveUpstreamSpec env with
      | none =>
        cases hhc : env.hasCommits with
        | error e => simp [spec_force_update, hfe, hr, hhc]
        | ok b => cases b <;> simp [spec_force_update, hfe, hr, hhc]
      | some up =>
        cases hres : env.resetResult up with
        | ok v => simp [spec_force_update, hfe, hr, hres]
        | error e => simp [spec_force_update, hfe, hr, hres]
  exact ⟨hsync.trans hmain, by rw [hsync, hmain]; exact hhead⟩

/-- Oracle for the C3 counterexample and witness: every resolution strategy
fails, the repository has commits. -/
def envC3 : GitEnv :=
  ⟨.ok (), true, true, .ok (), .ok (), .ok (), true, .ok (), .ok (),
   .error ["rev-parse failed"], .error ["branch failed"], fun _ => false,
   .error ["symbolic-ref failed"], .error ["for-each-ref failed"], .ok true,
   fun _ => .ok ()⟩

/-- Counterexample to C3 as stated: when no upstream resolves and the
repository has commits, the force-flagged sync does fail, but no message of
its error chain contains the claimed text "no upstream configured and no
remote branches found" — the code produces "No upstream branch configured and
no remote branches found" under a context message. -/
theorem C3_counterexample :
    (sync_repository envC3 true).1 =
      Except.error ["Unable to determine upstream branch for forced update",
                    "No upstream branch configured and no remote branches found"] ∧
    ∀ m ∈ ["Unable to determine upstream branch for forced update",
           "No upstream branch configured and no remote branches found"],
      strContains m "no upstream configured and no remote branches found" = false := by
  exact ⟨rfl, by decide⟩

/-- Witness for the amended C3 at a concrete oracle. -/
theorem C3_amended_force_update_witness :
    sync_repository envC3 true = spec_force_update envC3 :=
  (C3_amended_force_update envC3 rfl rfl rfl true rfl).1

theorem fetch_paginated_from_spec {T : Type} (fetchPage : Nat → Except String (List T))
    (P : Nat → List T) :
    ∀ (N s fuel : Nat),
      (∀ i, s ≤ i → i < s + N → fetchPage i = Except.ok (P i) ∧ P i ≠ []) →
      fetchPage (s + N) = Except.ok [] → N + 1 ≤ fuel →
      fetch_paginated_from fetchPage fuel s =
        (Except.ok ((List.range' s N).flatMap P), N + 1) := by
  intro N
  induction N with
  | zero =>
    intro s fuel hfull hempty hfuel
    cases fuel with
    | zero => omega
    | succ f =>
      have hs : fetchPage s = Except.ok [] := by
        have := hempty
        simpa using this
      simp [fetch_paginated_from, hs]
  | succ n ih =>
    intro s fuel hfull hempty hfuel
    cases fuel with
    | zero => omega
    | succ f =>
      have hs : fetchPage s = Except.ok (P s) ∧ P s ≠ [] :=
        hfull s (Nat.le_refl s) (by omega)
      have hne : (P s).isEmpty = false := by
        cases hp : P s with
        | nil => exact absurd hp hs.2
        | cons a t => rfl
      have hrec : fetch_paginated_from fetchPage f (s + 1) =
          (Except.ok ((List.range' (s + 1) n).flatMap P), n + 1) := by
        apply ih
        · intro i h1 h2
          exact hfull i (by omega) (by omega)
        · have : s + 1 + n = s + (n + 1) := by omega
          rw [this]
          exact hempty
        · omega
      have hrange : List.range' s (n + 1) = s :: List.range' (s + 1) n :=
        List.range'_succ s n 1
      rw [hrange]
      simp only [fetch_paginated_from, hs.1, hne, hrec, List.flatMap_cons]
      rfl

/-- C5: the paginated aggregator requests pages starting at 1 and stops at
the first empty page, returning the concatenation of the non-empty pages in
order; for `N` full pages of size `pageSize` followed by an empty page it
returns `N * pageSize` items in `N + 1` page requests. -/
theorem C5_pagination {T : Type} (fetchPage : Nat → Except String (List T))
    (P : Nat → List T) (N pageSize fuel : Nat)
    (hfull : ∀ i, 1 ≤ i → i ≤ N → fetchPage i = Except.ok (P i) ∧ P i ≠ [])
    (hempty : fetchPage (N + 1) = Except.ok []) (hfuel : N + 1 ≤ fuel) :
    fetch_paginated fetchPage fuel =
      (Except.ok ((List.range' 1 N).flatMap P), N + 1) ∧
    ((∀ i, 1 ≤ i → i ≤ N → (P i).length = pageSize) →
      ((List.range' 1 N).flatMap P).length = N * pageSize) := by
  constructor
  · unfold fetch_paginated
    apply fetch_paginated_from_spec fetchPage P N 1 fuel
    · intro i h1 h2
      exact hfull i h1 (by omega)
    · have h1N : 1 + N = N + 1 := by omega
      rw [h1N]
      exact hempty
    · exact hfuel
  · intro hlen
    rw [List.length_flatMap]
    have hmap : (List.range' 1 N).map (List.length ∘ P) =
        List.replicate N pageSize := by
      apply List.eq_replicate_iff.mpr
      constructor
      · simp
      · intro b hb
        rcases List.mem_map.mp hb with ⟨i, hi, hib⟩
        rcases List.mem_range'_1.mp hi with ⟨h1, h2⟩
        rw [← hib]
        exact hlen i h1 (by omega)
    rw [hmap, List.sum_replicate, smul_eq_mul]

/-- Page oracle for the C5 witness: two singleton pages then an empty page. -/
def c5page (i : Nat) : Except String (List Nat) :=
  if i ≤ 2 then Except.ok [i] else Except.ok []

/-- Witness for C5: two full pages of size one and a terminating empty page
yield both items in three requests. -/
theorem C5_pagination_witness : fetch_paginated c5page 5 = (Except.ok [1, 2], 3) := by
  have h := C5_pagination c5page (fun i => [i]) 2 1 5 ?hfull ?hempty (by omega)
  · rw [h.1]
    rfl
  case hfull =>
    intro i h1 h2
    refine ⟨?_, by simp⟩
    unfold c5page
    rw [if_pos h2]
  case hempty => rfl

theorem result_ok_iff (j : SyncJob) :
    resultIsErr (runJob j) = false ↔ j.outcome = Except.ok () := by
  cases ho : j.outcome with
  | ok u =>
    cases u
    simp [resultIsErr, runJob, ho]
  | error e => simp [resultIsErr, runJob, ho]

/-- C8: every submitted job contributes exactly one collected result whatever
the other jobs did (the scheduler may deliver them in any order); given the
pruning phase did not abort the run, the run exits successfully exactly when
no job failed, and otherwise reports an aggregate error after printing each
failed job's name and message. -/
theorem C8_aggregate_reporting (jobs : List SyncJob)
    (results : List (String × Except ErrChain Unit))
    (exactMirror : Bool) (pruneOutcome : Except ErrChain Unit)
    (hperm : results.Perm (jobs.map runJob))
    (hprune : exactMirror = true → pruneOutcome = Except.ok ()) :
    results.length = jobs.length ∧
    ((runSummary exactMirror pruneOutcome results).1 = Except.ok () ↔
      ∀ j ∈ jobs, j.outcome = Except.ok ()) ∧
    (runSummary exactMirror pruneOutcome results).2.Perm
      (((jobs.map runJob).filter resultIsErr).map failureLine) := by
  have hsum : runSummary exactMirror pruneOutcome results =
      (if (results.filter resultIsErr).isEmpty then (Except.ok (), [])
       else (Except.error ["Synchronization finished with errors."],
             (results.filter resultIsErr).map failureLine)) := by
    cases exactMirror with
    | false => rfl
    | true =>
      rw [hprune rfl]
      rfl
  refine ⟨?_, ?_, ?_⟩
  · rw [hperm.length_eq, List.length_map]
  · rw [hsum]
    by_cases he : (results.filter resultIsErr).isEmpty = true
    · rw [if_pos he]
      simp only [List.isEmpty_iff] at he
      have hall : ∀ r ∈ results, resultIsErr r = false := by
        intro r hr
        have hnot := List.filter_eq_nil_iff.mp he r hr
        simpa using hnot
      constructor
      · intro _ j hj
        have hjr : runJob j ∈ results :=
          (hperm.mem_iff).mpr (List.mem_map_of_mem runJob hj)
        exact (result_ok_iff j).mp (hall _ hjr)
      · intro _
        rfl
    · rw [if_neg he]
      constructor
      · intro h
        exact nomatch h
      · intro hall
        exfalso
        apply he
        simp only [List.isEmpty_iff]
        apply List.filter_eq_nil_iff.mpr
        intro r hr
        rcases List.mem_map.mp ((hperm.mem_iff).mp hr) with ⟨j, hj, hjr⟩
        rw [← hjr]
        have hok := (result_ok_iff j).mpr (hall j hj)
        simp [hok]
  · rw [hsum]
    by_cases he : (results.filter resultIsErr).isEmpty = true
    · rw [if_pos he]
      simp only [List.isEmpty_iff] at he
      have hjf : (jobs.map runJob).filter resultIsErr = [] := by
        have hpf := hperm.filter resultIsErr
        rw [he] at hpf
        exact (hpf.symm).eq_nil
      rw [hjf]
      exact List.Perm.refl _
    · rw [if_neg he]
      exact (hperm.filter resultIsErr).map failureLine

/-- Witness jobs for C8: `X` fails, `Y` succeeds. -/
def jobX : SyncJob := ⟨"X", Except.error ["boom"]⟩

/-- Witness jobs for C8: `Y` succeeds. -/
def jobY : SyncJob := ⟨"Y", Except.ok ()⟩

/-- Witness for C8: with job X failed and job Y succeeded, delivered in
reversed completion order, the run reports an aggregate error and prints
exactly X's name and message. -/
theorem C8_aggregate_reporting_witness :
    ¬ ((runSummary false (Except.ok ())
        [("Y", Except.ok ()), ("X", Except.error ["boom"])]).1 = Except.ok ()) ∧
    (runSummary false (Except.ok ())
        [("Y", Except.ok ()), ("X", Except.error ["boom"])]).2.Perm
      [("X", "boom")] := by
  have h := C8_aggregate_reporting [jobX, jobY]
      [("Y", Except.ok ()), ("X", Except.error ["boom"])] false (Except.ok ())
      (List.Perm.swap _ _ _) (fun hc => nomatch hc)
  constructor
  · intro hok
    have hX := h.2.1.mp hok jobX (by simp)
    exact nomatch hX
  · exact h.2.2

theorem bool_false_of_not {b : Bool} (h : ¬ b = true) : b = false := by
  cases b with
  | false => rfl
  | true => exact absurd rfl h

theorem contains_iff_str {α : Type} [BEq α] [LawfulBEq α] {l : List α} {a : α} :
    l.contains a = true ↔ a ∈ l :=
  List.elem_iff

theorem anyKey_iff (m : List Repo) (k : String) :
    (m.any fun x => x.full_name == k) = true ↔ k ∈ m.map Repo.full_name := by
  rw [List.any_eq_true]
  constructor
  · rintro ⟨x, hx, hk⟩
    exact List.mem_map.mpr ⟨x, hx, by simpa using hk⟩
  · intro hmem
    rcases List.mem_map.mp hmem with ⟨x, hx, hk⟩
    exact ⟨x, hx, by simp [hk]⟩

theorem charListLt_total : ∀ x y : List Char,
    charListLt x y = false ∨ charListLt y x = false := by
  intro x
  induction x with
  | nil =>
    intro y
    cases y with
    | nil => exact Or.inl rfl
    | cons b bs => exact Or.inr rfl
  | cons a as ih =>
    intro y
    cases y with
    | nil => exact Or.inl rfl
    | cons b bs =>
      rcases Nat.lt_trichotomy a.toNat b.toNat with hab | hab | hab
      · right
        rw [charListLt, if_neg (by omega), if_pos hab]
      · rcases ih bs with h | h
        · left
          rw [charListLt, if_neg (by omega), if_neg (by omega)]
          exact h
        · right
          rw [charListLt, if_neg (by omega), if_neg (by omega)]
          exact h
      · left
        rw [charListLt, if_neg (by omega), if_pos hab]

theorem charListLt_cons_false {a b : Char} {as bs : List Char}
    (h : charListLt (a :: as) (b :: bs) = false) :
    ¬ a.toNat < b.toNat ∧ (b.toNat < a.toNat ∨ charListLt as bs = false) := by
  by_cases h1 : a.toNat < b.toNat
  · rw [charListLt, if_pos h1] at h
    exact nomatch h
  · rw [charListLt, if_neg h1] at h
    by_cases h2 : b.toNat < a.toNat
    · exact ⟨h1, Or.inl h2⟩
    · rw [if_neg h2] at h
      exact ⟨h1, Or.inr h⟩

theorem charListLe_trans : ∀ a b c : List Char,
    charListLt b a = false → charListLt c b = false → charListLt c a = false := by
  intro a
  induction a with
  | nil =>
    intro b c h1 h2
    cases c with
    | nil => rfl
    | cons x xs => rfl
  | cons ha ta ih =>
    intro b c h1 h2
    cases b with
    | nil => exact nomatch h1
    | cons hb tb =>
      cases c with
      | nil => exact nomatch h2
      | cons hc tc =>
        rcases charListLt_cons_false h1 with ⟨hba, hrest1⟩
        rcases charListLt_cons_false h2 with ⟨hcb, hrest2⟩
        have hca : ¬ hc.toNat < ha.toNat := by omega
        rw [charListLt, if_neg hca]
        by_cases hac : ha.toNat < hc.toNat
        · rw [if_pos hac]
        · rw [if_neg hac]
          have hab : ha.toNat = hb.toNat := by omega
          have hbc : hb.toNat = hc.toNat := by omega
          have ht1 : charListLt tb ta = false := by
            rcases hrest1 with h | h
            · omega
            · exact h
          have ht2 : charListLt tc tb = false := by
            rcases hrest2 with h | h
            · omega
            · exact h
          exact ih tb tc ht1 ht2

instance : IsTotal Repo fullNameLe :=
  ⟨fun a b => charListLt_total b.full_name.toList a.full_name.toList⟩

instance : IsTrans Repo fullNameLe :=
  ⟨fun a b c hab hbc =>
    charListLe_trans a.full_name.toList b.full_name.toList c.full_name.toList hab hbc⟩

theorem firstWinsAux_congr (l : List Repo) :
    ∀ seen seen' : List String, (∀ k, k ∈ seen ↔ k ∈ seen') →
      firstWinsAux seen l = firstWinsAux seen' l := by
  induction l with
  | nil =>
    intro seen seen' _
    rfl
  | cons r t ih =>
    intro seen seen' h
    by_cases hk : r.full_name ∈ seen
    · have h1 : seen.contains r.full_name = true := contains_iff_str.mpr hk
      have h2 : seen'.contains r.full_name = true := contains_iff_str.mpr ((h _).mp hk)
      simp only [firstWinsAux, h1, h2, if_true]
      exact ih seen seen' h
    · have h1 : seen.contains r.full_name = false :=
        bool_false_of_not (fun hc => hk (contains_iff_str.mp hc))
      have h2 : seen'.contains r.full_name = false :=
        bool_false_of_not (fun hc => hk ((h _).mpr (contains_iff_str.mp hc)))
      simp only [firstWinsAux, h1, h2, Bool.false_eq_true, if_false]
      congr 1
      apply ih
      intro k
      simp only [List.mem_cons]
      rw [h k]

theorem foldl_insertIfAbsent_eq (l : List Repo) :
    ∀ (m : List Repo) (seen : List String),
      (∀ k, k ∈ seen ↔ k ∈ m.map Repo.full_name) →
      l.foldl insertIfAbsent m = m ++ firstWinsAux seen l := by
  induction l with
  | nil =>
    intro m seen _
    simp [firstWinsAux]
  | cons r t ih =>
    intro m seen h
    rw [List.foldl_cons]
    by_cases hk : r.full_name ∈ m.map Repo.full_name
    · have ha : (m.any fun x => x.full_name == r.full_name) = true :=
        (anyKey_iff m _).mpr hk
      have hi : insertIfAbsent m r = m := by
        unfold insertIfAbsent
        rw [if_pos ha]
      have hc : seen.contains r.full_name = true := contains_iff_str.mpr ((h _).mpr hk)
      rw [hi, ih m seen h]
      congr 1
      simp only [firstWinsAux, hc, if_true]
    · have ha : (m.any fun x => x.full_name == r.full_name) = false :=
        bool_false_of_not (fun hc => hk ((anyKey_iff m _).mp hc))
      have hi : insertIfAbsent m r = m ++ [r] := by
        unfold insertIfAbsent
        rw [if_neg (by rw [ha]; exact Bool.false_ne_true)]
      have hc : seen.contains r.full_name = false :=
        bool_false_of_not (fun hcc => hk ((h _).mp (contains_iff_str.mp hcc)))
      rw [hi, ih (m ++ [r]) (r.full_name :: seen) ?hseen]
      · rw [List.append_assoc]
        congr 1
        simp only [firstWinsAux, hc, Bool.false_eq_true, if_false]
        rfl
      case hseen =>
        intro k
        simp only [List.mem_cons, List.map_append, List.mem_append, List.map_cons,
          List.map_nil, List.mem_singleton]
        rw [h k]
        constructor
        · rintro (hk1 | hk2)
          · exact Or.inr (by simp [hk1])
          · exact Or.inl hk2
        · rintro (hk1 | hk2)
          · exact Or.inr hk1
          · simp only [List.mem_cons, List.not_mem_nil, or_false] at hk2
            exact Or.inl hk2

theorem fetchAccum_spec (reposOf : String → List Repo) :
    ∀ (us fetched : List String) (m : List Repo),
      ∃ δ : List String,
        (fetchAccum reposOf us fetched m).1 = fetched ++ δ ∧
        δ.Sublist us ∧
        (∀ u ∈ δ, u ∉ fetched) ∧
        δ.Nodup ∧
        (∀ u ∈ us, u ∈ fetched ∨ u ∈ δ) ∧
        (fetchAccum reposOf us fetched m).2 =
          ((δ.map reposOf).flatten).foldl insertIfAbsent m := by
  intro us
  induction us with
  | nil =>
    intro fetched m
    exact ⟨[], by simp [fetchAccum]⟩
  | cons u t ih =>
    intro fetched m
    by_cases hc : fetched.contains u = true
    · rcases ih fetched m with ⟨δ, h1, h2, h3, h4, h5, h6⟩
      refine ⟨δ, ?_, h2.cons u, h3, h4, ?_, ?_⟩
      · simp only [fetchAccum, hc, if_true]
        exact h1
      · intro v hv
        rcases List.mem_cons.mp hv with heq | hv'
        · rw [heq]
          exact Or.inl (contains_iff_str.mp hc)
        · exact h5 v hv'
      · simp only [fetchAccum, hc, if_true]
        exact h6
    · have hcf : fetched.contains u = false := bool_false_of_not hc
      have hunf : u ∉ fetched := fun hm => hc (contains_iff_str.mpr hm)
      rcases ih (fetched ++ [u]) ((reposOf u).foldl insertIfAbsent m) with
        ⟨δ', h1, h2, h3, h4, h5, h6⟩
      refine ⟨u :: δ', ?_, h2.cons₂ u, ?_, ?_, ?_, ?_⟩
      · simp only [fetchAccum, hcf, Bool.false_eq_true, if_false]
        rw [h1, List.append_assoc]
        rfl
      · intro v hv
        rcases List.mem_cons.mp hv with heq | hv'
        · rw [heq]
          exact hunf
        · intro hvf
          exact h3 v hv' (List.mem_append_left [u] hvf)
      · refine List.nodup_cons.mpr ⟨?_, h4⟩
        intro hu
        exact h3 u hu (List.mem_append_right fetched (List.mem_singleton.mpr rfl))
      · intro v hv
        rcases List.mem_cons.mp hv with heq | hv'
        · rw [heq]
          exact Or.inr (List.mem_cons_self u δ')
        · rcases h5 v hv' with hvf | hvd
          · rcases List.mem_append.mp hvf with hvf1 | hvf2
            · exact Or.inl hvf1
            · exact Or.inr (List.mem_cons.mpr (Or.inl (List.mem_singleton.mp hvf2)))
          · exact Or.inr (List.mem_cons.mpr (Or.inr hvd))
      · simp only [fetchAccum, hcf, Bool.false_eq_true, if_false]
        rw [h6, List.map_cons, List.flatten_cons, List.foldl_append]

theorem mem_firstWinsAux (r : Repo) :
    ∀ (l : List Repo) (seen : List String),
      r ∈ firstWinsAux seen l ↔
        (r.full_name ∉ seen ∧
         ∃ l₁ l₂, l = l₁ ++ r :: l₂ ∧ ∀ x ∈ l₁, x.full_name ≠ r.full_name) := by
  intro l
  induction l with
  | nil =>
    intro seen
    constructor
    · intro h
      exact absurd h (List.not_mem_nil r)
    · rintro ⟨-, l₁, l₂, hsplit, -⟩
      have := congrArg List.length hsplit
      simp at this
      omega
  | cons a t ih =>
    intro seen
    by_cases hk : seen.contains a.full_name = true
    · have hmem : a.full_name ∈ seen := contains_iff_str.mp hk
      simp only [firstWinsAux, hk, if_true]
      rw [ih seen]
      constructor
      · rintro ⟨hns, l₁, l₂, hsplit, hfree⟩
        refine ⟨hns, a :: l₁, l₂, by rw [hsplit]; rfl, ?_⟩
        intro x hx
        rcases List.mem_cons.mp hx with heq2 | hx'
        · rw [heq2]
          intro heq
          rw [heq] at hmem
          exact hns hmem
        · exact hfree x hx'
      · rintro ⟨hns, l₁, l₂, hsplit, hfree⟩
        cases l₁ with
        | nil =>
          simp only [List.nil_append] at hsplit
          have har : a = r := (List.cons.inj hsplit).1
          rw [har] at hmem
          exact absurd hmem hns
        | cons b l₁' =>
          simp only [List.cons_append] at hsplit
          have hab : a = b := (List.cons.inj hsplit).1
          have hts : t = l₁' ++ r :: l₂ := (List.cons.inj hsplit).2
          exact ⟨hns, l₁', l₂, hts, fun x hx => hfree x (List.mem_cons.mpr (Or.inr hx))⟩
    · have hkf : seen.contains a.full_name = false := bool_false_of_not hk
      have hnm : a.full_name ∉ seen := fun hm => hk (contains_iff_str.mpr hm)
      simp only [firstWinsAux, hkf, Bool.false_eq_true, if_false, List.mem_cons]
      constructor
      · rintro (rfl | hrec)
        · exact ⟨hnm, [], t, rfl, by simp⟩
        · rcases (ih (a.full_name :: seen)).mp hrec with ⟨hns', l₁, l₂, hsplit, hfree⟩
          have hns : r.full_name ∉ seen := fun hm => hns' (List.mem_cons.mpr (Or.inr hm))
          have hne : r.full_name ≠ a.full_name :=
            fun heq => hns' (List.mem_cons.mpr (Or.inl heq))
          refine ⟨hns, a :: l₁, l₂, by rw [hsplit]; rfl, ?_⟩
          intro x hx
          rcases List.mem_cons.mp hx with heq2 | hx'
          · rw [heq2]
            exact fun heq => hne heq.symm
          · exact hfree x hx'
      · rintro ⟨hns, l₁, l₂, hsplit, hfree⟩
        cases l₁ with
        | nil =>
          simp only [List.nil_append] at hsplit
          exact Or.inl ((List.cons.inj hsplit).1.symm)
        | cons b l₁' =>
          simp only [List.cons_append] at hsplit
          have hab : a = b := (List.cons.inj hsplit).1
          have hts : t = l₁' ++ r :: l₂ := (List.cons.inj hsplit).2
          right
          apply (ih (a.full_name :: seen)).mpr
          refine ⟨?_, l₁', l₂, hts, fun x hx => hfree x (List.mem_cons.mpr (Or.inr hx))⟩
          intro hmem
          rcases List.mem_cons.mp hmem with heq | hmem'
          · have hbr : b.full_name ≠ r.full_name :=
              hfree b (List.mem_cons.mpr (Or.inl rfl))
            rw [← hab] at hbr
            exact hbr heq.symm
          · exact hns hmem'

theorem firstWinsAux_keys (l : List Repo) :
    ∀ seen : List String,
      (∀ k ∈ (firstWinsAux seen l).map Repo.full_name, k ∉ seen) ∧
      ((firstWinsAux seen l).map Repo.full_name).Nodup := by
  induction l with
  | nil =>
    intro seen
    simp [firstWinsAux]
  | cons a t ih =>
    intro seen
    by_cases hk : seen.contains a.full_name = true
    · simp only [firstWinsAux, hk, if_true]
      exact ih seen
    · have hkf : seen.contains a.full_name = false := bool_false_of_not hk
      have hnm : a.full_name ∉ seen := fun hm => hk (contains_iff_str.mpr hm)
      simp only [firstWinsAux, hkf, Bool.false_eq_true, if_false, List.map_cons]
      rcases ih (a.full_name :: seen) with ⟨hdisj, hnd⟩
      constructor
      · intro k hkm
        rcases List.mem_cons.mp hkm with rfl | hkm'
        · exact hnm
        · intro hks
          exact hdisj k hkm' (List.mem_cons.mpr (Or.inr hks))
      · refine List.nodup_cons.mpr ⟨?_, hnd⟩
        intro hin
        exact hdisj _ hin (List.mem_cons_self _ _)

/-- C4: the multi-account aggregation fetches each distinct account at most
once (the fetched accounts are the input without duplicates, in order),
merges first-insertion-wins by full name over the accounts in fetch order,
and returns the merged values sorted lexicographically by full name, each
full name occurring exactly once; a repository is in the result exactly when
it is the first repository bearing its full name in the concatenation of the
fetched accounts' lists. -/
theorem C4_multi_account_aggregation (reposOf : String → List Repo)
    (usernames : List String) :
    (fetchedAccounts reposOf usernames).Nodup ∧
    (fetchedAccounts reposOf usernames).Sublist usernames ∧
    (∀ u, u ∈ fetchedAccounts reposOf usernames ↔ u ∈ usernames) ∧
    (fetch_repos_for_users reposOf usernames).Perm
      (firstWins (((fetchedAccounts reposOf usernames).map reposOf).flatten)) ∧
    List.Sorted fullNameLe (fetch_repos_for_users reposOf usernames) ∧
    ((fetch_repos_for_users reposOf usernames).map Repo.full_name).Nodup ∧
    (∀ r, r ∈ fetch_repos_for_users reposOf usernames ↔
      ∃ l₁ l₂,
        ((fetchedAccounts reposOf usernames).map reposOf).flatten = l₁ ++ r :: l₂ ∧
        ∀ x ∈ l₁, x.full_name ≠ r.full_name) := by
  rcases fetchAccum_spec reposOf usernames [] [] with ⟨δ, h1, h2, h3, h4, h5, h6⟩
  have hfa : fetchedAccounts reposOf usernames = δ := by
    unfold fetchedAccounts
    rw [h1]
    rfl
  have hm : (fetchAccum reposOf usernames [] []).2 =
      firstWins ((δ.map reposOf).flatten) := by
    rw [h6]
    exact foldl_insertIfAbsent_eq _ [] [] (by simp)
  have hout : fetch_repos_for_users reposOf usernames =
      List.insertionSort fullNameLe (firstWins ((δ.map reposOf).flatten)) := by
    unfold fetch_repos_for_users
    rw [hm]
  have hperm : (fetch_repos_for_users reposOf usernames).Perm
      (firstWins ((δ.map reposOf).flatten)) := by
    rw [hout]
    exact List.perm_insertionSort fullNameLe _
  refine ⟨?_, ?_, ?_, ?_, ?_, ?_, ?_⟩
  · rw [hfa]
    exact h4
  · rw [hfa]
    exact h2
  · intro u
    rw [hfa]
    exact ⟨fun h => h2.subset h, fun h => (h5 u h).resolve_left (List.not_mem_nil u)⟩
  · rw [hfa]
    exact hperm
  · rw [hout]
    exact List.sorted_insertionSort fullNameLe _
  · have hfw : ((firstWins ((δ.map reposOf).flatten)).map Repo.full_name).Nodup :=
      (firstWinsAux_keys ((δ.map reposOf).flatten) []).2
    exact ((hperm.map Repo.full_name).symm).nodup hfw
  · intro r
    rw [hfa]
    constructor
    · intro hr
      have hrm : r ∈ firstWins ((δ.map reposOf).flatten) := hperm.mem_iff.mp hr
      exact ((mem_firstWinsAux r _ []).mp hrm).2
    · intro hsplit
      apply hperm.mem_iff.mpr
      exact (mem_firstWinsAux r _ []).mpr ⟨List.not_mem_nil _, hsplit⟩

/-- A repository under the shared full name, as fetched from `alice`. -/
def repoSharedA : Repo := ⟨"x", "urlA", false, "shared/x", ⟨"alice"⟩⟩

/-- The same full name as fetched from `bob` (different payload). -/
def repoSharedB : Repo := ⟨"x", "urlB", false, "shared/x", ⟨"bob"⟩⟩

/-- Per-account fetch oracle for the C4 witness. -/
def reposOfW (u : String) : List Repo :=
  if u == "alice" then [repoAliceExample, repoSharedA]
  else if u == "bob" then [repoBobExample, repoSharedB]
  else []

/-- Witness for C4: with `alice` listed before `bob` (and a duplicate
`alice` ignored), the shared full name is attributed to `alice`'s copy, and
the fetched-account list is duplicate-free. -/
theorem C4_multi_account_aggregation_witness :
    (fetchedAccounts reposOfW ["alice", "bob", "alice"]).Nodup ∧
    repoSharedA ∈ fetch_repos_for_users reposOfW ["alice", "bob", "alice"] := by
  have h := C4_multi_account_aggregation reposOfW ["alice", "bob", "alice"]
  refine ⟨h.1, ?_⟩
  apply (h.2.2.2.2.2.2 repoSharedA).mpr
  refine ⟨[repoAliceExample], [repoBobExample, repoSharedB], ?_, ?_⟩
  · decide
  · decide

theorem childNamed_removeTop_self (cs : List (String × FsNode)) (a : String) :
    childNamed (removeTop cs a) a = none := by
  induction cs with
  | nil => rfl
  | cons c t ih =>
    by_cases h : (c.1 == a) = true
    · have hr : removeTop (c :: t) a = removeTop t a := by
        simp [removeTop, List.filter_cons, h]
      rw [hr]
      exact ih
    · have h' : (c.1 == a) = false := bool_false_of_not h
      have hr : removeTop (c :: t) a = c :: removeTop t a := by
        simp [removeTop, List.filter_cons, h']
      rw [hr]
      simp only [childNamed, h', Bool.false_eq_true, if_false]
      exact ih

theorem childNamed_removeTop_other (cs : List (String × FsNode)) (a b : String)
    (hne : b ≠ a) : childNamed (removeTop cs a) b = childNamed cs b := by
  induction cs with
  | nil => rfl
  | cons c t ih =>
    by_cases h : (c.1 == a) = true
    · have hca : c.1 = a := by simpa using h
      have hcb : (c.1 == b) = false := by
        rw [hca]
        exact beq_eq_false_iff_ne.mpr (fun he => hne he.symm)
      have hr : removeTop (c :: t) a = removeTop t a := by
        simp [removeTop, List.filter_cons, h]
      rw [hr, ih]
      simp only [childNamed, hcb, Bool.false_eq_true, if_false]
    · have h' : (c.1 == a) = false := bool_false_of_not h
      have hr : removeTop (c :: t) a = c :: removeTop t a := by
        simp [removeTop, List.filter_cons, h']
      rw [hr]
      simp only [childNamed]
      by_cases hb : (c.1 == b) = true
      · rw [if_pos hb, if_pos hb]
      · rw [if_neg hb, if_neg hb]
        exact ih

theorem childNamed_removeAt2_self (root : List (String × FsNode)) (a b : String) :
    childNamed (removeAt root [a, b]) a = (childNamed root a).map (removeInner b) := by
  induction root with
  | nil => rfl
  | cons c t ih =>
    simp only [removeAt, List.map_cons] at ih ⊢
    by_cases h : (c.1 == a) = true
    · rw [if_pos h]
      simp [childNamed, h]
    · rw [if_neg h]
      have h' : (c.1 == a) = false := bool_false_of_not h
      simp only [childNamed, h', Bool.false_eq_true, if_false]
      exact ih

theorem childNamed_removeAt2_other (root : List (String × FsNode)) (a b a' : String)
    (hne : a' ≠ a) :
    childNamed (removeAt root [a, b]) a' = childNamed root a' := by
  induction root with
  | nil => rfl
  | cons c t ih =>
    simp only [removeAt, List.map_cons] at ih ⊢
    by_cases h : (c.1 == a) = true
    · have hca : c.1 = a := by simpa using h
      have hcb : (c.1 == a') = false := by
        rw [hca]
        exact beq_eq_false_iff_ne.mpr (fun he => hne he.symm)
      rw [if_pos h]
      simp only [childNamed, hcb, Bool.false_eq_true, if_false]
      exact ih
    · rw [if_neg h]
      simp only [childNamed]
      by_cases hb : (c.1 == a') = true
      · rw [if_pos hb, if_pos hb]
      · rw [if_neg hb, if_neg hb]
        exact ih

theorem getAt_removeAt_self (root : List (String × FsNode)) (p : FsPath)
    (hshape : (∃ a, p = [a]) ∨ ∃ a b, p = [a, b]) :
    getAt (removeAt root p) p = none := by
  rcases hshape with ⟨a, rfl⟩ | ⟨a, b, rfl⟩
  · simp only [getAt, removeAt]
    exact childNamed_removeTop_self root a
  · simp only [getAt]
    rw [childNamed_removeAt2_self]
    cases hc : childNamed root a with
    | none => rfl
    | some n =>
      cases n with
      | file => rfl
      | dir cs =>
        simp only [Option.map_some', removeInner]
        exact childNamed_removeTop_self cs b

theorem getAt_removeAt_other (root : List (String × FsNode)) (p q : FsPath)
    (hcond : q.head? ≠ p.head? ∨ ∃ a b b', p = [a, b] ∧ q = [a, b'] ∧ b' ≠ b)
    (hp : (∃ a, p = [a]) ∨ ∃ a b, p = [a, b])
    (hq : (∃ a, q = [a]) ∨ ∃ a b, q = [a, b]) :
    getAt (removeAt root p) q = getAt root q := by
  rcases hp with ⟨a, rfl⟩ | ⟨a, b, rfl⟩ <;> rcases hq with ⟨x, rfl⟩ | ⟨x, y, rfl⟩
  · have hxa : x ≠ a := by
      rcases hcond with hh | ⟨a1, b1, b1', hp1, -, -⟩
      · simpa using hh
      · exact absurd (congrArg List.length hp1) (by simp)
    simp only [getAt, removeAt]
    exact childNamed_removeTop_other root a x hxa
  · have hxa : x ≠ a := by
      rcases hcond with hh | ⟨a1, b1, b1', hp1, -, -⟩
      · simpa using hh
      · exact absurd (congrArg List.length hp1) (by simp)
    simp only [getAt, removeAt]
    rw [childNamed_removeTop_other root a x hxa]
  · have hxa : x ≠ a := by
      rcases hcond with hh | ⟨a1, b1, b1', -, hq1, -⟩
      · simpa using hh
      · exact absurd (congrArg List.length hq1) (by simp)
    simp only [getAt]
    exact childNamed_removeAt2_other root a b x hxa
  · by_cases hxa : x = a
    · have hyb : y ≠ b := by
        rcases hcond with hh | ⟨a1, b1, b1', hp1, hq1, hbb⟩
        · exfalso
          apply hh
          rw [hxa]
          rfl
        · have hb1 : b = b1 := (List.cons.inj (List.cons.inj hp1).2).1
          have hyb1 : y = b1' := (List.cons.inj (List.cons.inj hq1).2).1
          rw [hyb1, hb1]
          exact hbb
      subst hxa
      simp only [getAt]
      rw [childNamed_removeAt2_self]
      cases hc : childNamed root x with
      | none => rfl
      | some n =>
        cases n with
        | file => rfl
        | dir cs =>
          simp only [Option.map_some', removeInner]
          exact childNamed_removeTop_other cs b y hyb
    · simp only [getAt]
      rw [childNamed_removeAt2_other root a b x hxa]

theorem getAt_removeAt_none (root : List (String × FsNode)) (p q : FsPath)
    (hq : (∃ a, q = [a]) ∨ ∃ a b, q = [a, b])
    (h : getAt root q = none) : getAt (removeAt root p) q = none := by
  rcases hq with ⟨x, rfl⟩ | ⟨x, y, rfl⟩
  · match p with
    | [] => exact h
    | [a] =>
      simp only [getAt, removeAt] at h ⊢
      by_cases hxa : x = a
      · rw [hxa]
        exact childNamed_removeTop_self root a
      · rw [childNamed_removeTop_other root a x hxa]
        exact h
    | [a, b] =>
      simp only [getAt] at h ⊢
      by_cases hxa : x = a
      · subst hxa
        rw [childNamed_removeAt2_self, h]
        rfl
      · rw [childNamed_removeAt2_other root a b x hxa]
        exact h
    | a :: b :: c :: r => exact h
  · match p with
    | [] => exact h
    | [a] =>
      simp only [getAt, removeAt] at h ⊢
      by_cases hxa : x = a
      · rw [hxa, childNamed_removeTop_self root a]
      · rw [childNamed_removeTop_other root a x hxa]
        exact h
    | [a, b] =>
      simp only [getAt] at h ⊢
      by_cases hxa : x = a
      · subst hxa
        rw [childNamed_removeAt2_self]
        cases hc : childNamed root x with
        | none => rfl
        | some n =>
          rw [hc] at h
          cases n with
          | file => rfl
          | dir cs =>
            simp only [Option.map_some', removeInner]
            by_cases hyb : y = b
            · rw [hyb]
              exact childNamed_removeTop_self cs b
            · rw [childNamed_removeTop_other cs b y hyb]
              exact h
      · rw [childNamed_removeAt2_other root a b x hxa]
        exact h
    | a :: b :: c :: r => exact h

theorem is_git_repo_file : is_git_repo FsNode.file = false := rfl

theorem is_git_repo_dir_ex {n : FsNode} (h : is_git_repo n = true) :
    ∃ cs, n = FsNode.dir cs := by
  cases n with
  | file => exact nomatch h
  | dir cs => exact ⟨cs, rfl⟩

theorem entries_eq_of_nodup {root : List (String × FsNode)}
    (h : (root.map (fun c => c.1)).Nodup) {c c' : String × FsNode}
    (hc : c ∈ root) (hc' : c' ∈ root) (hname : c.1 = c'.1) : c = c' := by
  induction root with
  | nil => exact absurd hc (List.not_mem_nil c)
  | cons x t ih =>
    rw [List.map_cons, List.nodup_cons] at h
    rcases List.mem_cons.mp hc with rfl | hct
    · rcases List.mem_cons.mp hc' with rfl | hc't
      · rfl
      · exact absurd (hname ▸ List.mem_map.mpr ⟨c', hc't, rfl⟩) h.1
    · rcases List.mem_cons.mp hc' with rfl | hc't
      · exact absurd (hname ▸ List.mem_map.mpr ⟨c, hct, rfl⟩) h.1
      · exact ih h.2 hct hc't

theorem childNamed_of_mem {root : List (String × FsNode)}
    (h : (root.map (fun c => c.1)).Nodup) {c : String × FsNode} (hc : c ∈ root) :
    childNamed root c.1 = some c.2 := by
  induction root with
  | nil => exact absurd hc (List.not_mem_nil c)
  | cons x t ih =>
    rw [List.map_cons, List.nodup_cons] at h
    rcases List.mem_cons.mp hc with rfl | hct
    · simp [childNamed]
    · have hxc : (x.1 == c.1) = false := by
        apply beq_eq_false_iff_ne.mpr
        intro he
        exact h.1 (he ▸ List.mem_map.mpr ⟨c, hct, rfl⟩)
      simp only [childNamed, hxc, Bool.false_eq_true, if_false]
      exact ih h.2 hct

theorem mem_of_childNamed {root : List (String × FsNode)} {x : String} {n : FsNode}
    (h : childNamed root x = some n) : (x, n) ∈ root := by
  induction root with
  | nil => exact nomatch h
  | cons c t ih =>
    by_cases hc : (c.1 == x) = true
    · simp only [childNamed, hc, if_true] at h
      have hcx : c.1 = x := by simpa using hc
      have : c = (x, n) := by
        cases c
        simp at hcx h ⊢
        exact ⟨hcx, h⟩
      rw [← this]
      exact List.mem_cons_self c t
    · have h' : (c.1 == x) = false := bool_false_of_not hc
      simp only [childNamed, h', Bool.false_eq_true, if_false] at h
      exact List.mem_cons.mpr (Or.inr (ih h))

theorem mem_existing (root : List (String × FsNode)) (p : FsPath) :
    p ∈ existing_repo_paths root ↔
      (∃ c ∈ root, is_git_repo c.2 = true ∧ p = [c.1]) ∨
      (∃ c ∈ root, is_git_repo c.2 = false ∧ isDirNode c.2 = true ∧
        ∃ d ∈ dirChildren c.2, isDirNode d.2 = true ∧ is_git_repo d.2 = true ∧
          p = [c.1, d.1]) := by
  unfold existing_repo_paths
  rw [List.mem_flatMap]
  constructor
  · rintro ⟨c, hc, hp⟩
    cases hn : c.2 with
    | file =>
      rw [hn] at hp
      exact absurd hp (List.not_mem_nil p)
    | dir inner =>
      rw [hn] at hp
      simp only at hp
      by_cases hg : is_git_repo (FsNode.dir inner) = true
      · rw [if_pos hg] at hp
        simp only [List.mem_singleton] at hp
        exact Or.inl ⟨c, hc, by rw [hn]; exact hg, hp⟩
      · have hg' : is_git_repo (FsNode.dir inner) = false := bool_false_of_not hg
        rw [if_neg hg] at hp
        rw [List.mem_flatMap] at hp
        rcases hp with ⟨d, hd, hp2⟩
        by_cases hdg : (isDirNode d.2 && is_git_repo d.2) = true
        · rw [if_pos hdg] at hp2
          simp only [List.mem_singleton] at hp2
          rcases (Bool.and_eq_true _ _).mp hdg with ⟨hdd, hdgit⟩
          refine Or.inr ⟨c, hc, by rw [hn]; exact hg', by rw [hn]; rfl, d, ?_, hdd, hdgit, hp2⟩
          rw [hn]
          exact hd
        · rw [if_neg hdg] at hp2
          exact absurd hp2 (List.not_mem_nil p)
  · rintro (⟨c, hc, hg, hp⟩ | ⟨c, hc, hg, hd, d, hdm, hdd, hdgit, hp⟩)
    · rcases is_git_repo_dir_ex hg with ⟨cs, hcs⟩
      refine ⟨c, hc, ?_⟩
      rw [hcs]
      simp only
      rw [if_pos (by rw [← hcs]; exact hg)]
      simp [hp]
    · have hcs : ∃ cs, c.2 = FsNode.dir cs := by
        cases hcn : c.2 with
        | file =>
          rw [hcn] at hd
          exact nomatch hd
        | dir cs => exact ⟨cs, rfl⟩
      rcases hcs with ⟨cs, hcs⟩
      refine ⟨c, hc, ?_⟩
      rw [hcs]
      simp only
      rw [if_neg (by rw [← hcs, hg]; exact Bool.false_ne_true)]
      rw [List.mem_flatMap]
      refine ⟨d, by rw [← show dirChildren c.2 = cs from by rw [hcs]; rfl]; exact hdm, ?_⟩
      rw [if_pos (by rw [hdd, hdgit]; rfl)]
      simp [hp]

theorem existing_shapes {root : List (String × FsNode)} (p : FsPath)
    (h : p ∈ existing_repo_paths root) :
    (∃ a, p = [a]) ∨ ∃ a b, p = [a, b] := by
  rcases (mem_existing root p).mp h with ⟨c, -, -, hp⟩ | ⟨c, -, -, -, d, -, -, -, hp⟩
  · exact Or.inl ⟨c.1, hp⟩
  · exact Or.inr ⟨c.1, d.1, hp⟩

theorem existing_not_nested {root : List (String × FsNode)}
    (hw : (root.map (fun c => c.1)).Nodup) {a b : String}
    (h1 : [a] ∈ existing_repo_paths root)
    (h2 : [a, b] ∈ existing_repo_paths root) : False := by
  rcases (mem_existing root [a]).mp h1 with ⟨c, hc, hg, hp⟩ | ⟨c, -, -, -, d, -, -, -, hp⟩
  · rcases (mem_existing root [a, b]).mp h2 with ⟨c', -, -, hp'⟩ |
      ⟨c', hc', hg', -, d', -, -, -, hp'⟩
    · exact absurd (congrArg List.length hp') (by simp)
    · have hca : c.1 = a := ((List.cons.inj hp).1).symm
      have hca' : c'.1 = a := ((List.cons.inj hp').1).symm
      have hcc : c = c' := entries_eq_of_nodup hw hc hc' (by rw [hca, hca'])
      rw [hcc, hg'] at hg
      exact nomatch hg
  · exact absurd (congrArg List.length hp) (by simp)

theorem existing_pair_cond {root : List (String × FsNode)}
    (hw : (root.map (fun c => c.1)).Nodup) {p q : FsPath}
    (hp : p ∈ existing_repo_paths root) (hq : q ∈ existing_repo_paths root)
    (hne : p ≠ q) :
    q.head? ≠ p.head? ∨ ∃ a b b', p = [a, b] ∧ q = [a, b'] ∧ b' ≠ b := by
  rcases existing_shapes p hp with ⟨a, rfl⟩ | ⟨a, b, rfl⟩ <;>
    rcases existing_shapes q hq with ⟨x, rfl⟩ | ⟨x, y, rfl⟩
  · left
    intro hh
    have : x = a := by simpa using hh
    exact hne (by rw [this])
  · by_cases hax : x = a
    · subst hax
      exact (existing_not_nested hw hp hq).elim
    · left
      simpa using hax
  · by_cases hax : x = a
    · subst hax
      exact (existing_not_nested hw hq hp).elim
    · left
      simpa using hax
  · by_cases hax : x = a
    · subst hax
      refine Or.inr ⟨x, b, y, rfl, rfl, ?_⟩
      intro hyb
      exact hne (by rw [hyb])
    · left
      simpa using hax

theorem removeAt_names (root : List (String × FsNode)) (p : FsPath)
    (h : (root.map (fun c => c.1)).Nodup) :
    ((removeAt root p).map (fun c => c.1)).Nodup := by
  match p with
  | [] => exact h
  | [a] =>
    have hs : (removeTop root a).map (fun c => c.1) |>.Sublist (root.map (fun c => c.1)) :=
      List.Sublist.map _ (List.filter_sublist root)
    exact List.Nodup.sublist hs h
  | [a, b] =>
    have heq : (removeAt root [a, b]).map (fun c => c.1) = root.map (fun c => c.1) := by
      simp only [removeAt, List.map_map]
      apply List.map_congr_left
      intro c _
      by_cases hc : c.1 = a
      · simp [hc]
      · simp [hc]
    rw [heq]
    exact h
  | a :: b :: c :: r => exact h

/-- The property, for a fixed top-level name `a` and child name `g`, that the
root has an `a` directory whose `g` child is a regular file. -/
def HasFileChild (a g : String) (root : List (String × FsNode)) : Prop :=
  ∃ cs, childNamed root a = some (FsNode.dir cs) ∧ childNamed cs g = some FsNode.file

theorem removeAt_preserves_hasFileChild {a g : String}
    {root : List (String × FsNode)} {q : FsPath}
    (hq : (∃ x, q = [x] ∧ x ≠ a) ∨ ∃ x y, q = [x, y] ∧ (x ≠ a ∨ y ≠ g))
    (h : HasFileChild a g root) : HasFileChild a g (removeAt root q) := by
  rcases h with ⟨cs, hc, hg⟩
  rcases hq with ⟨x, rfl, hxa⟩ | ⟨x, y, rfl, hxy⟩
  · refine ⟨cs, ?_, hg⟩
    simp only [removeAt]
    rw [childNamed_removeTop_other root x a (fun he => hxa he.symm)]
    exact hc
  · by_cases hxa : x = a
    · rcases hxy with hxa' | hyg
      · exact absurd hxa hxa'
      · subst hxa
        refine ⟨removeTop cs y, ?_, ?_⟩
        · rw [childNamed_removeAt2_self, hc]
          rfl
        · rw [childNamed_removeTop_other cs y g (fun he => hyg he.symm)]
          exact hg
    · refine ⟨cs, ?_, hg⟩
      rw [childNamed_removeAt2_other root x y a (fun he => hxa he.symm)]
      exact hc

theorem removeExtras_trace_sub (canRemove : FsPath → Bool) (desired : List FsPath) :
    ∀ (L : List FsPath) (root : List (String × FsNode)) (q : FsPath),
      q ∈ (removeExtras canRemove desired L root).2 → q ∈ L := by
  intro L
  induction L with
  | nil =>
    intro root q hq
    exact absurd hq (List.not_mem_nil q)
  | cons p ps ih =>
    intro root q hq
    simp only [removeExtras] at hq
    by_cases hd : desired.contains p = true
    · rw [if_pos hd] at hq
      exact List.mem_cons.mpr (Or.inr (ih root q hq))
    · rw [if_neg hd] at hq
      by_cases hc : canRemove p = true
      · rw [if_pos hc] at hq
        simp only at hq
        rcases List.mem_cons.mp hq with heq | hq'
        · exact List.mem_cons.mpr (Or.inl heq)
        · exact List.mem_cons.mpr (Or.inr (ih _ q hq'))
      · rw [if_neg hc] at hq
        simp only [List.mem_singleton] at hq
        exact List.mem_cons.mpr (Or.inl hq)

theorem removeExtras_error (canRemove : FsPath → Bool) (desired : List FsPath) :
    ∀ (L : List FsPath) (root : List (String × FsNode)),
      (∃ p ∈ L, p ∉ desired ∧ canRemove p = false) →
      ∃ e, (removeExtras canRemove desired L root).1 = Except.error e := by
  intro L
  induction L with
  | nil =>
    rintro root ⟨p, hp, -⟩
    exact absurd hp (List.not_mem_nil p)
  | cons p ps ih =>
    rintro root ⟨w, hw, hwd, hwc⟩
    simp only [removeExtras]
    by_cases hd : desired.contains p = true
    · rw [if_pos hd]
      apply ih
      rcases List.mem_cons.mp hw with rfl | hw'
      · exact absurd (contains_iff_str.mp hd) hwd
      · exact ⟨w, hw', hwd, hwc⟩
    · rw [if_neg hd]
      by_cases hc : canRemove p = true
      · rw [if_pos hc]
        apply ih
        rcases List.mem_cons.mp hw with rfl | hw'
        · rw [hc] at hwc
          exact nomatch hwc
        · exact ⟨w, hw', hwd, hwc⟩
      · rw [if_neg hc]
        exact ⟨["Failed to remove outdated repository"], rfl⟩

theorem removeExtras_ok_preserves (canRemove : FsPath → Bool) (desired : List FsPath)
    (a g : String) :
    ∀ (L : List FsPath) (root root1 : List (String × FsNode)),
      (removeExtras canRemove desired L root).1 = Except.ok root1 →
      (∀ q ∈ L, (∃ x, q = [x] ∧ x ≠ a) ∨ ∃ x y, q = [x, y] ∧ (x ≠ a ∨ y ≠ g)) →
      (HasFileChild a g root → HasFileChild a g root1) ∧
      ((root.map (fun c => c.1)).Nodup → (root1.map (fun c => c.1)).Nodup) := by
  intro L
  induction L with
  | nil =>
    intro root root1 hok _
    simp only [removeExtras] at hok
    cases hok
    exact ⟨id, id⟩
  | cons p ps ih =>
    intro root root1 hok hq
    simp only [removeExtras] at hok
    by_cases hd : desired.contains p = true
    · rw [if_pos hd] at hok
      exact ih root root1 hok (fun q hqm => hq q (List.mem_cons.mpr (Or.inr hqm)))
    · rw [if_neg hd] at hok
      by_cases hc : canRemove p = true
      · rw [if_pos hc] at hok
        simp only at hok
        have hrec := ih (removeAt root p) root1 hok
          (fun q hqm => hq q (List.mem_cons.mpr (Or.inr hqm)))
        have hpshape := hq p (List.mem_cons_self p ps)
        refine ⟨fun hh => hrec.1 (removeAt_preserves_hasFileChild hpshape hh),
                fun hn => hrec.2 (removeAt_names root p hn)⟩
      · rw [if_neg hc] at hok
        exact nomatch hok

theorem removeExtras_ok_names (canRemove : FsPath → Bool) (desired : List FsPath) :
    ∀ (L : List FsPath) (root root1 : List (String × FsNode)),
      (removeExtras canRemove desired L root).1 = Except.ok root1 →
      (root.map (fun c => c.1)).Nodup → (root1.map (fun c => c.1)).Nodup := by
  intro L
  induction L with
  | nil =>
    intro root root1 hok hn
    simp only [removeExtras] at hok
    cases hok
    exact hn
  | cons p ps ih =>
    intro root root1 hok hn
    simp only [removeExtras] at hok
    by_cases hd : desired.contains p = true
    · rw [if_pos hd] at hok
      exact ih root root1 hok hn
    · rw [if_neg hd] at hok
      by_cases hc : canRemove p = true
      · rw [if_pos hc] at hok
        simp only at hok
        exact ih (removeAt root p) root1 hok (removeAt_names root p hn)
      · rw [if_neg hc] at hok
        exact nomatch hok

theorem removeExtras_getAt (canRemove : FsPath → Bool) (desired : List FsPath)
    (ex0 : List FsPath)
    (hshape : ∀ p ∈ ex0, (∃ a, p = [a]) ∨ ∃ a b, p = [a, b])
    (hpair : ∀ p ∈ ex0, ∀ q ∈ ex0, p ≠ q →
      q.head? ≠ p.head? ∨ ∃ a b b', p = [a, b] ∧ q = [a, b'] ∧ b' ≠ b) :
    ∀ (L : List FsPath) (root : List (String × FsNode)),
      (∀ p ∈ L, p ∈ ex0) →
      (∀ p ∈ L, p ∉ desired → canRemove p = true) →
      ∃ root1,
        removeExtras canRemove desired L root =
          (Except.ok root1, L.filter (fun p => !desired.contains p)) ∧
        (∀ q ∈ ex0, q ∈ desired ∨ q ∉ L → getAt root1 q = getAt root q) ∧
        (∀ q ∈ L, q ∉ desired → getAt root1 q = none) := by
  intro L
  induction L with
  | nil =>
    intro root _ _
    exact ⟨root, by simp [removeExtras], fun q _ _ => rfl,
           fun q hq _ => absurd hq (List.not_mem_nil q)⟩
  | cons p ps ih =>
    intro root hsub hrem
    have hpex : p ∈ ex0 := hsub p (List.mem_cons_self p ps)
    by_cases hd : desired.contains p = true
    · rcases ih root (fun v hv => hsub v (List.mem_cons.mpr (Or.inr hv)))
        (fun v hv => hrem v (List.mem_cons.mpr (Or.inr hv))) with
        ⟨root1, heq, hpres, hnone⟩
      refine ⟨root1, ?_, ?_, ?_⟩
      · simp only [removeExtras, hd, if_true]
        rw [heq, List.filter_cons, if_neg (by rw [hd]; decide)]
      · intro q hq hcase
        apply hpres q hq
        rcases hcase with hqd | hqn
        · exact Or.inl hqd
        · exact Or.inr (fun hm => hqn (List.mem_cons.mpr (Or.inr hm)))
      · intro q hq hqd
        rcases List.mem_cons.mp hq with rfl | hq'
        · exact absurd (contains_iff_str.mp hd) hqd
        · exact hnone q hq' hqd
    · have hpd : p ∉ desired := fun hm => hd (contains_iff_str.mpr hm)
      have hcr : canRemove p = true := hrem p (List.mem_cons_self p ps) hpd
      rcases ih (removeAt root p) (fun v hv => hsub v (List.mem_cons.mpr (Or.inr hv)))
        (fun v hv => hrem v (List.mem_cons.mpr (Or.inr hv))) with
        ⟨root1, heq, hpres, hnone⟩
      refine ⟨root1, ?_, ?_, ?_⟩
      · have hdf : desired.contains p = false := bool_false_of_not hd
        simp only [removeExtras, hdf, Bool.false_eq_true, if_false, hcr, if_true]
        rw [heq, List.filter_cons, if_pos (by rw [hdf]; decide)]
      · intro q hq hcase
        have hqp : q ≠ p := by
          rcases hcase with hqd | hqn
          · intro he
            rw [he] at hqd
            exact hpd hqd
          · intro he
            exact hqn (he ▸ List.mem_cons_self p ps)
        have hstep : getAt (removeAt root p) q = getAt root q := by
          apply getAt_removeAt_other root p q
          · exact hpair p hpex q hq (fun he => hqp he.symm)
          · exact hshape p hpex
          · exact hshape q hq
        rw [← hstep]
        apply hpres q hq
        rcases hcase with hqd | hqn
        · exact Or.inl hqd
        · exact Or.inr (fun hm => hqn (List.mem_cons.mpr (Or.inr hm)))
      · intro q hq hqd
        rcases List.mem_cons.mp hq with rfl | hq'
        · by_cases hin : q ∈ ps
          · exact hnone q hin hqd
          · have := hpres q hpex (Or.inr hin)
            rw [this]
            exact getAt_removeAt_self root q (hshape q hpex)
        · exact hnone q hq' hqd

theorem childNamed_none_of_filter (cs : List (String × FsNode))
    (f : String × FsNode → Bool) (x : String)
    (h : childNamed cs x = none) : childNamed (cs.filter f) x = none := by
  induction cs with
  | nil => rfl
  | cons c t ih =>
    by_cases hc : (c.1 == x) = true
    · simp only [childNamed, hc, if_true] at h
      exact nomatch h
    · have h' : (c.1 == x) = false := bool_false_of_not hc
      simp only [childNamed, h', Bool.false_eq_true, if_false] at h
      rw [List.filter_cons]
      by_cases hf : f c = true
      · rw [if_pos hf]
        simp only [childNamed, h', Bool.false_eq_true, if_false]
        exact ih h
      · rw [if_neg hf]
        exact ih h

theorem childNamed_none_of_names (cs : List (String × FsNode)) (x : String)
    (h : x ∉ cs.map (fun c => c.1)) : childNamed cs x = none := by
  induction cs with
  | nil => rfl
  | cons c t ih =>
    rw [List.map_cons] at h
    have hcx : (c.1 == x) = false := by
      apply beq_eq_false_iff_ne.mpr
      intro he
      exact h (List.mem_cons.mpr (Or.inl he.symm))
    simp only [childNamed, hcx, Bool.false_eq_true, if_false]
    exact ih (fun hm => h (List.mem_cons.mpr (Or.inr hm)))

theorem childNamed_filter_kept (cs : List (String × FsNode))
    (f : String × FsNode → Bool) (x : String) (n : FsNode)
    (hnod : (cs.map (fun c => c.1)).Nodup)
    (h : childNamed cs x = some n) (hf : f (x, n) = true) :
    childNamed (cs.filter f) x = some n := by
  induction cs with
  | nil => exact nomatch h
  | cons c t ih =>
    rw [List.map_cons, List.nodup_cons] at hnod
    by_cases hc : (c.1 == x) = true
    · simp only [childNamed, hc, if_true] at h
      have hcx : c.1 = x := by simpa using hc
      have hce : c = (x, n) := by
        cases c
        simp at hcx h ⊢
        exact ⟨hcx, h⟩
      rw [List.filter_cons, if_pos (by rw [hce]; exact hf)]
      simp only [childNamed, hc, if_true]
      rw [h]
    · have h' : (c.1 == x) = false := bool_false_of_not hc
      simp only [childNamed, h', Bool.false_eq_true, if_false] at h
      rw [List.filter_cons]
      by_cases hfc : f c = true
      · rw [if_pos hfc]
        simp only [childNamed, h', Bool.false_eq_true, if_false]
        exact ih hnod.2 h
      · rw [if_neg hfc]
        exact ih hnod.2 h

theorem childNamed_filter_dropped (cs : List (String × FsNode))
    (f : String × FsNode → Bool) (x : String) (n : FsNode)
    (hnod : (cs.map (fun c => c.1)).Nodup)
    (h : childNamed cs x = some n) (hf : f (x, n) = false) :
    childNamed (cs.filter f) x = none := by
  induction cs with
  | nil => exact nomatch h
  | cons c t ih =>
    rw [List.map_cons, List.nodup_cons] at hnod
    by_cases hc : (c.1 == x) = true
    · simp only [childNamed, hc, if_true] at h
      have hcx : c.1 = x := by simpa using hc
      have hce : c = (x, n) := by
        cases c
        simp at hcx h ⊢
        exact ⟨hcx, h⟩
      rw [List.filter_cons, if_neg (by rw [hce, hf]; exact Bool.false_ne_true)]
      apply childNamed_none_of_filter
      apply childNamed_none_of_names
      intro hm
      exact hnod.1 (hcx ▸ hm)
    · have h' : (c.1 == x) = false := bool_false_of_not hc
      simp only [childNamed, h', Bool.false_eq_true, if_false] at h
      rw [List.filter_cons]
      by_cases hfc : f c = true
      · rw [if_pos hfc]
        simp only [childNamed, h', Bool.false_eq_true, if_false]
        exact ih hnod.2 h
      · rw [if_neg hfc]
        exact ih hnod.2 h

/-- C7 (amended): exact-mirror reconciliation removes exactly the discovered
repository paths outside the desired set (a failed removal of one of those is
propagated, aborting the run), leaves desired repositories untouched, and
afterwards removes every empty non-repository directory directly under the
output root whose removal succeeds; a failure to remove such a directory is
ignored and the directory stays, rather than being propagated. -/
theorem C7_amended_mirror_pruning (root : List (String × FsNode))
    (desired : List FsPath) (canRemove : FsPath → Bool) (hwf : WfRoot root) :
    ((∀ p ∈ existing_repo_paths root, p ∉ desired → canRemove p = true) →
      ∃ root2 cleanupTr,
        prune_extra_repos canRemove desired root =
          (Except.ok root2,
           (existing_repo_paths root).filter (fun p => !desired.contains p) ++
             cleanupTr) ∧
        (∀ q ∈ existing_repo_paths root, q ∈ desired →
          getAt root2 q = getAt root q) ∧
        (∀ q ∈ existing_repo_paths root, q ∉ desired → getAt root2 q = none) ∧
        (∀ x n, childNamed root2 x = some n → cleanupCandidate (x, n) = true →
          canRemove [x] = false)) ∧
    ((∃ p ∈ existing_repo_paths root, p ∉ desired ∧ canRemove p = false) →
      ∃ e, (prune_extra_repos canRemove desired root).1 = Except.error e) := by
  constructor
  · intro hrem
    rcases removeExtras_getAt canRemove desired (existing_repo_paths root)
      (fun p hp => existing_shapes p hp)
      (fun p hp q hq hne => existing_pair_cond hwf.1 hp hq hne)
      (existing_repo_paths root) root (fun p hp => hp) hrem with
      ⟨root1, heq, hpres, hnone⟩
    have hnames1 : (root1.map (fun c => c.1)).Nodup :=
      removeExtras_ok_names canRemove desired _ root root1 (by rw [heq]) hwf.1
    have hprune : prune_extra_repos canRemove desired root =
        (Except.ok (cleanupEmpties canRemove root1),
         (existing_repo_paths root).filter (fun p => !desired.contains p) ++
           (root1.filter cleanupCandidate).map (fun c => [c.1])) := by
      unfold prune_extra_repos
      rw [heq]
    refine ⟨cleanupEmpties canRemove root1,
      (root1.filter cleanupCandidate).map (fun c => [c.1]), hprune, ?_, ?_, ?_⟩
    · intro q hq hqd
      have h1 : getAt root1 q = getAt root q := hpres q hq (Or.inl hqd)
      rcases existing_shapes q hq with ⟨a, rfl⟩ | ⟨a, b, rfl⟩
      · rcases (mem_existing root [a]).mp hq with ⟨c, hc, hg, hp⟩ |
          ⟨c, -, -, -, d, -, -, -, hp⟩
        · have hca : c.1 = a := ((List.cons.inj hp).1).symm
          have hcn : childNamed root a = some c.2 := hca ▸ childNamed_of_mem hwf.1 hc
          have hroot1 : childNamed root1 a = some c.2 := by
            simp only [getAt] at h1
            rw [hcn] at h1
            exact h1
          have hkeep : childNamed (cleanupEmpties canRemove root1) a = some c.2 := by
            apply childNamed_filter_kept root1 _ a c.2 hnames1 hroot1
            simp [cleanupCandidate, hg]
          simp only [getAt]
          rw [hkeep, hcn]
        · exact absurd (congrArg List.length hp) (by simp)
      · rcases (mem_existing root [a, b]).mp hq with ⟨c, -, -, hp⟩ |
          ⟨c, hc, -, hdir, d, hd, -, -, hp⟩
        · exact absurd (congrArg List.length hp) (by simp)
        · have hca : c.1 = a := ((List.cons.inj hp).1).symm
          have hdb : d.1 = b := ((List.cons.inj (List.cons.inj hp).2).1).symm
          have hcn : childNamed root a = some c.2 := hca ▸ childNamed_of_mem hwf.1 hc
          rcases (show ∃ cs, c.2 = FsNode.dir cs from by
            cases hx : c.2 with
            | file => rw [hx] at hdir; exact nomatch hdir
            | dir cs => exact ⟨cs, rfl⟩) with ⟨cs, hcs⟩
          have hinner : (cs.map (fun c => c.1)).Nodup := by
            have := hwf.2 c hc
            rw [hcs] at this
            exact this
          have hdm : d ∈ cs := by
            rw [hcs] at hd
            exact hd
          have hdn : childNamed cs b = some d.2 := hdb ▸ childNamed_of_mem hinner hdm
          have hga : getAt root [a, b] = some d.2 := by
            simp only [getAt]
            rw [hcn, hcs]
            exact hdn
          have h1' : getAt root1 [a, b] = some d.2 := by
            rw [h1, hga]
          rcases (show ∃ cs', childNamed root1 a = some (FsNode.dir cs') ∧
              childNamed cs' b = some d.2 from by
            simp only [getAt] at h1'
            cases hc1 : childNamed root1 a with
            | none =>
              rw [hc1] at h1'
              exact nomatch h1'
            | some n =>
              rw [hc1] at h1'
              cases n with
              | file => exact nomatch h1'
              | dir cs' => exact ⟨cs', rfl, h1'⟩) with ⟨cs', hc1, hcb⟩
          have hne : (List.isEmpty cs') = false := by
            cases cs' with
            | nil => exact nomatch hcb
            | cons z zs => rfl
          have hkeep : childNamed (cleanupEmpties canRemove root1) a =
              some (FsNode.dir cs') := by
            apply childNamed_filter_kept root1 _ a _ hnames1 hc1
            simp [cleanupCandidate, dirChildren, hne]
          simp only [getAt]
          rw [hkeep]
          exact hcb.trans hga.symm
    · intro q hq hqd
      have h1 : getAt root1 q = none := hnone q hq hqd
      rcases existing_shapes q hq with ⟨a, rfl⟩ | ⟨a, b, rfl⟩
      · simp only [getAt] at h1 ⊢
        exact childNamed_none_of_filter root1 _ a h1
      · simp only [getAt] at h1 ⊢
        cases hc1 : childNamed root1 a with
        | none =>
          have h2 : childNamed (cleanupEmpties canRemove root1) a = none :=
            childNamed_none_of_filter root1 _ a hc1
          rw [h2]
        | some n =>
          by_cases hf : (fun c => !(cleanupCandidate c && canRemove [c.1])) (a, n) = true
          · have h2 : childNamed (cleanupEmpties canRemove root1) a = some n :=
              childNamed_filter_kept root1 _ a n hnames1 hc1 hf
            rw [h2]
            rw [hc1] at h1
            exact h1
          · have h2 : childNamed (cleanupEmpties canRemove root1) a = none :=
              childNamed_filter_dropped root1 _ a n hnames1 hc1 (bool_false_of_not hf)
            rw [h2]
    · intro x n hcn hcand
      have hmem : (x, n) ∈ cleanupEmpties canRemove root1 := mem_of_childNamed hcn
      have hpred := List.of_mem_filter hmem
      cases hb : canRemove [x] with
      | false => rfl
      | true =>
        exfalso
        simp only [hcand, hb, Bool.and_self, Bool.not_true] at hpred
        exact nomatch hpred
  · intro hex
    rcases removeExtras_error canRemove desired (existing_repo_paths root) root hex with
      ⟨e, he⟩
    refine ⟨e, ?_⟩
    cases hpr : removeExtras canRemove desired (existing_repo_paths root) root with
    | mk r1 tr =>
      rw [hpr] at he
      unfold prune_extra_repos
      rw [hpr]
      cases r1 with
      | error e0 => exact he
      | ok root1 => exact nomatch he

/-- A directory holding version-control metadata. -/
def repoNode : FsNode := FsNode.dir [(".git", FsNode.dir [])]

/-- On-disk state for the C7 counterexample: one owner directory holding one
repository. -/
def rootC7 : List (String × FsNode) := [("owner", FsNode.dir [("repo", repoNode)])]

/-- Removal oracle for the C7 counterexample: removing the emptied owner
directory fails; everything else succeeds. -/
def canRemoveC7 (p : FsPath) : Bool := !(p == ["owner"])

/-- Counterexample to C7 as stated: with an empty desired set, the nested
repository is pruned, the now-empty owner directory's removal is attempted
and fails, yet the run still reports success — the cleanup failure is
silently swallowed, not propagated. -/
theorem C7_counterexample :
    Except.isOk (prune_extra_repos canRemoveC7 [] rootC7).1 = true ∧
    ["owner"] ∈ (prune_extra_repos canRemoveC7 [] rootC7).2 ∧
    canRemoveC7 ["owner"] = false := by
  exact ⟨rfl, by decide, rfl⟩

/-- On-disk state for the C7 witness: repositories `A`, `B`, `C` directly
under the output root. -/
def rootC7w : List (String × FsNode) :=
  [("A", repoNode), ("B", repoNode), ("C", repoNode)]

/-- Witness for the amended C7 at the spec's example: desired `{A, B}`,
on-disk `{A, B, C}` — exactly `C` is removed, `A` and `B` stay untouched. -/
theorem C7_amended_mirror_pruning_witness :
    ∃ root2,
      (prune_extra_repos (fun _ => true) [["A"], ["B"]] rootC7w).1 =
        Except.ok root2 ∧
      getAt root2 ["C"] = none ∧
      getAt root2 ["A"] = getAt rootC7w ["A"] ∧
      getAt root2 ["B"] = getAt rootC7w ["B"] := by
  have h := (C7_amended_mirror_pruning rootC7w [["A"], ["B"]] (fun _ => true)
    (by decide)).1 (fun p _ _ => rfl)
  rcases h with ⟨root2, tr, heq, hpres, hnone, -⟩
  refine ⟨root2, ?_, ?_, ?_, ?_⟩
  · rw [heq]
  · exact hnone ["C"] (by decide) (by decide)
  · exact hpres ["A"] (by decide) (by decide)
  · exact hpres ["B"] (by decide) (by decide)

theorem sync_nonforce_head (env : GitEnv) (hpc : env.parentCreate = Except.ok ())
    (hpe : env.pathExists = true) (hg : env.dotGitExists = true) :
    (sync_repository env false).2.head? = some Act.pull := by
  cases hp : env.pullResult with
  | ok u => simp [sync_repository, hpc, hpe, hg, hp]
  | error e =>
    by_cases hd : is_default_branch_error e = true
    · cases hr : env.removeRepoDir with
      | ok v => simp [sync_repository, hpc, hpe, hg, hp, hd, hr]
      | error e2 => simp [sync_repository, hpc, hpe, hg, hp, hd, hr]
    · have hdf := bool_false_of_not hd
      simp [sync_repository, hpc, hpe, hg, hp, hdf]

theorem sync_nonforce_clone_sig (env : GitEnv) (hpc : env.parentCreate = Except.ok ())
    (hpe : env.pathExists = true) (hg : env.dotGitExists = true) :
    Act.cloneCmd ∈ (sync_repository env false).2 →
      ∃ e, env.pullResult = Except.error e ∧ is_default_branch_error e = true := by
  intro hmem
  cases hp : env.pullResult with
  | ok u =>
    cases u
    simp [sync_repository, hpc, hpe, hg, hp] at hmem
  | error e =>
    by_cases hd : is_default_branch_error e = true
    · exact ⟨e, rfl, hd⟩
    · have hdf := bool_false_of_not hd
      simp [sync_repository, hpc, hpe, hg, hp, hdf] at hmem

theorem sync_force_no_clone (env : GitEnv) (hpc : env.parentCreate = Except.ok ())
    (hpe : env.pathExists = true) (hg : env.dotGitExists = true) :
    (sync_repository env true).2.head? = some Act.fetchPrune ∧
    Act.cloneCmd ∉ (sync_repository env true).2 := by
  have hs : sync_repository env true = force_update env := by
    simp [sync_repository, hpc, hpe, hg]
  rw [hs]
  cases hfe : env.fetchResult with
  | error e => constructor <;> simp [force_update, hfe]
  | ok u =>
    cases hcu : current_upstream env with
    | error e => constructor <;> simp [force_update, hfe, hcu]
    | ok o =>
      cases o with
      | none => constructor <;> simp [force_update, hfe, hcu]
      | some up =>
        cases hres : env.resetResult up with
        | ok v => constructor <;> simp [force_update, hfe, hcu, hres]
        | error e => constructor <;> simp [force_update, hfe, hcu, hres]

/-- C10: the sync state machine and the pruning discovery classify a path
whose `.git` entry is a regular file differently — `sync_repository` takes
the update branch for it (pull, or fetch-and-reset under force; a clone is
only ever reached through the default-branch recovery), while
`existing_repo_paths` never lists it and `prune_extra_repos` never attempts
to delete it. -/
theorem C10_dotgit_file_classification (root : List (String × FsNode))
    (hwf : WfRoot root) (p : FsPath) (n : FsNode)
    (hget : getAt root p = some n)
    (hshape : (∃ a, p = [a]) ∨ ∃ a b, p = [a, b])
    (hfile : childNamed (dirChildren n) ".git" = some FsNode.file) :
    syncSeesValidRepo n = true ∧
    is_git_repo n = false ∧
    p ∉ existing_repo_paths root ∧
    (∀ canRemove desired, p ∉ (prune_extra_repos canRemove desired root).2) ∧
    (∀ env : GitEnv, env.parentCreate = Except.ok () → env.pathExists = true →
      env.dotGitExists = syncSeesValidRepo n →
      (sync_repository env false).2.head? = some Act.pull ∧
      (Act.cloneCmd ∈ (sync_repository env false).2 →
        ∃ e, env.pullResult = Except.error e ∧ is_default_branch_error e = true) ∧
      (sync_repository env true).2.head? = some Act.fetchPrune ∧
      Act.cloneCmd ∉ (sync_repository env true).2) := by
  have hsees : syncSeesValidRepo n = true := by
    unfold syncSeesValidRepo
    rw [hfile]
    rfl
  have hgit : is_git_repo n = false := by
    unfold is_git_repo
    rw [hfile]
    rfl
  have hnex : p ∉ existing_repo_paths root := by
    intro hmem
    rcases (mem_existing root p).mp hmem with ⟨c, hc, hg, hp⟩ |
      ⟨c, hc, -, -, d, hd, -, hdg, hp⟩
    · rcases hshape with ⟨a, rfl⟩ | ⟨a, b, rfl⟩
      · have hca : c.1 = a := ((List.cons.inj hp).1).symm
        have hcn : childNamed root a = some c.2 := hca ▸ childNamed_of_mem hwf.1 hc
        simp only [getAt] at hget
        rw [hcn] at hget
        have hnc : c.2 = n := Option.some.inj hget
        rw [hnc, hgit] at hg
        exact nomatch hg
      · exact absurd (congrArg List.length hp) (by simp)
    · rcases hshape with ⟨a, rfl⟩ | ⟨a, b, rfl⟩
      · exact absurd (congrArg List.length hp) (by simp)
      · have hca : c.1 = a := ((List.cons.inj hp).1).symm
        have hdb : d.1 = b := ((List.cons.inj (List.cons.inj hp).2).1).symm
        have hcn : childNamed root a = some c.2 := hca ▸ childNamed_of_mem hwf.1 hc
        simp only [getAt] at hget
        rw [hcn] at hget
        rcases (show ∃ cs, c.2 = FsNode.dir cs from by
          cases hx : c.2 with
          | file =>
            rw [hx] at hget
            exact nomatch hget
          | dir cs => exact ⟨cs, rfl⟩) with ⟨cs, hcs⟩
        rw [hcs] at hget
        have hinner : (cs.map (fun c => c.1)).Nodup := by
          have := hwf.2 c hc
          rw [hcs] at this
          exact this
        have hdm : d ∈ cs := by
          have := hd
          rw [hcs] at this
          exact this
        have hdn : childNamed cs b = some d.2 := hdb ▸ childNamed_of_mem hinner hdm
        have hget2 : childNamed cs b = some n := hget
        rw [hdn] at hget2
        have hnd : d.2 = n := Option.some.inj hget2
        rw [hnd, hgit] at hdg
        exact nomatch hdg
  refine ⟨hsees, hgit, hnex, ?_, ?_⟩
  · intro canRemove desired hmem
    cases hpr : removeExtras canRemove desired (existing_repo_paths root) root with
    | mk r1 tr =>
      have htr : ∀ q ∈ tr, q ∈ existing_repo_paths root := by
        intro q hq
        apply removeExtras_trace_sub canRemove desired (existing_repo_paths root) root
        rw [hpr]
        exact hq
      unfold prune_extra_repos at hmem
      rw [hpr] at hmem
      cases r1 with
      | error e => exact hnex (htr p hmem)
      | ok root1 =>
        simp only [List.mem_append] at hmem
        rcases hmem with hm1 | hm2
        · exact hnex (htr p hm1)
        · rcases List.mem_map.mp hm2 with ⟨c, hcf, hcp⟩
          have hcand : cleanupCandidate c = true := List.of_mem_filter hcf
          have hcr1 : c ∈ root1 := List.mem_of_mem_filter hcf
          rcases hshape with ⟨a, hpa⟩ | ⟨a, b, hpb⟩
          · have hca : c.1 = a := by
              rw [hpa] at hcp
              exact (List.cons.inj hcp.symm).1.symm
            have hnd : ∃ cs, n = FsNode.dir cs := by
              cases hx : n with
              | file =>
                rw [hx] at hfile
                exact nomatch hfile
              | dir cs => exact ⟨cs, rfl⟩
            rcases hnd with ⟨cs, hncs⟩
            have hhas : HasFileChild a ".git" root := by
              refine ⟨cs, ?_, ?_⟩
              · rw [hpa] at hget
                simp only [getAt] at hget
                rw [← hncs]
                exact hget
              · rw [← show dirChildren n = cs from by rw [hncs]; rfl]
                exact hfile
            have hexshape : ∀ q ∈ existing_repo_paths root,
                (∃ x, q = [x] ∧ x ≠ a) ∨ ∃ x y, q = [x, y] ∧ (x ≠ a ∨ y ≠ ".git") := by
              intro q hq
              rcases existing_shapes q hq with ⟨x, rfl⟩ | ⟨x, y, rfl⟩
              · refine Or.inl ⟨x, rfl, ?_⟩
                intro hxa
                rw [hxa] at hq
                rw [hpa] at hnex
                exact hnex hq
              · refine Or.inr ⟨x, y, rfl, ?_⟩
                by_cases hxa : x = a
                · right
                  intro hyg
                  subst hxa
                  subst hyg
                  rcases (mem_existing root [x, ".git"]).mp hq with ⟨c', -, -, hp'⟩ |
                    ⟨c', hc', -, -, d', hd', -, hdg', hp'⟩
                  · exact absurd (congrArg List.length hp') (by simp)
                  · have hca' : c'.1 = x := ((List.cons.inj hp').1).symm
                    have hdg'' : d'.1 = ".git" :=
                      ((List.cons.inj (List.cons.inj hp').2).1).symm
                    have hcn' : childNamed root x = some c'.2 :=
                      hca' ▸ childNamed_of_mem hwf.1 hc'
                    have hc2n : c'.2 = n := by
                      rw [hpa] at hget
                      simp only [getAt] at hget
                      rw [hcn'] at hget
                      exact Option.some.inj hget
                    have hinner : ((dirChildren c'.2).map (fun c => c.1)).Nodup :=
                      hwf.2 c' hc'
                    have hdn' : childNamed (dirChildren c'.2) ".git" = some d'.2 :=
                      hdg'' ▸ childNamed_of_mem hinner hd'
                    rw [hc2n] at hdn'
                    rw [hfile] at hdn'
                    have : FsNode.file = d'.2 := Option.some.inj hdn'
                    rw [← this] at hdg'
                    exact nomatch hdg'
                · exact Or.inl hxa
            have hok : (removeExtras canRemove desired (existing_repo_paths root)
                root).1 = Except.ok root1 := by
              rw [hpr]
            have hpres := (removeExtras_ok_preserves canRemove desired a ".git"
              (existing_repo_paths root) root root1 hok hexshape).1 hhas
            have hnames1 : (root1.map (fun c => c.1)).Nodup :=
              removeExtras_ok_names canRemove desired _ root root1 hok hwf.1
            rcases hpres with ⟨cs', hc1, hgitc⟩
            have hcmem : childNamed root1 c.1 = some c.2 :=
              childNamed_of_mem hnames1 hcr1
            rw [hca, hc1] at hcmem
            have hc2 : c.2 = FsNode.dir cs' := (Option.some.inj hcmem).symm
            have hne : cs' ≠ [] := by
              intro hnil
              rw [hnil] at hgitc
              exact nomatch hgitc
            have : cleanupCandidate c = false := by
              unfold cleanupCandidate
              rw [hc2]
              cases hcs' : cs' with
              | nil => exact absurd hcs' hne
              | cons z zs => simp [dirChildren]
            rw [this] at hcand
            exact nomatch hcand
          · rw [hpb] at hcp
            exact absurd (congrArg List.length hcp) (by simp)
  · intro env hpc hpe hg
    rw [hsees] at hg
    exact ⟨sync_nonforce_head env hpc hpe hg, sync_nonforce_clone_sig env hpc hpe hg,
           (sync_force_no_clone env hpc hpe hg).1, (sync_force_no_clone env hpc hpe hg).2⟩

/-- The node of the C10 witness: a directory whose `.git` entry is a file. -/
def nodeC10 : FsNode := FsNode.dir [(".git", FsNode.file)]

/-- On-disk state for the C10 witness. -/
def rootC10 : List (String × FsNode) := [("weird", nodeC10)]

/-- Witness for C10 at a concrete tree: the `.git`-as-file path is treated as
valid by the sync check, is not a repository for pruning discovery, and is
never targeted by reconciliation. -/
theorem C10_dotgit_file_classification_witness :
    syncSeesValidRepo nodeC10 = true ∧
    is_git_repo nodeC10 = false ∧
    ["weird"] ∉ existing_repo_paths rootC10 ∧
    ["weird"] ∉ (prune_extra_repos (fun _ => true) [] rootC10).2 := by
  have h := C10_dotgit_file_classification rootC10 (by decide) ["weird"] nodeC10 rfl
    (Or.inl ⟨"weird", rfl⟩) rfl
  exact ⟨h.1, h.2.1, h.2.2.1, h.2.2.2.1 (fun _ => true) []⟩

end Replicant
